import Mathlib

/-!
Verification development for the `slo1/torrent` repository.

The Rust sources are shallowly embedded:
* `src/bencode.rs` — the Bencode decoder (`decode`, `decode_int`, `decode_str`,
  `decode_list`, `decode_dict`);
* `src/lib.rs`    — the torrent-descriptor reader up to the info-hash step;
* `src/main.rs`   — the piece-table construction in `run`;
* `src/download.rs` — `request_block`, `handle_piece_msg`, `give_out_job`, and
  the coordinator's bitfield processing.

Byte buffers are `List Nat` (each entry a `u8` value `0..255`); machine
integers are `Nat`/`Int` with explicit `% 2 ^ w` where wrap-around matters.
Fallible Rust code returns `DecRes`/`Option`; a Rust `panic!`/`unwrap` failure
is the `.panic` outcome.
-/

namespace Torrent

/-- `u8::is_ascii_digit` : the byte is one of `b'0'..=b'9'` (48..57). -/
def isAsciiDigit (c : Nat) : Bool := 48 ≤ c && c ≤ 57

/-- Rendering of `{}` applied to `x as char` for a byte `x` (used in the
`format!` error strings of src/bencode.rs). -/
def charStr (c : Nat) : String := String.mk [Char.ofNat c]

/-- The bytes of an ASCII string literal, as numbers. -/
def strB (s : String) : List Nat := s.data.map Char.toNat

/-- `Iterator::position` on a byte slice: index of the first element
satisfying the predicate. -/
def position (p : Nat → Bool) : List Nat → Option Nat
  | [] => none
  | x :: xs => if p x then some 0 else (position p xs).map (· + 1)

/-- Outcome of running a fallible piece of Rust code:
`ok` mirrors `Ok`, `err` mirrors `Err` (with the message built by the
source's `format!`/string literal), and `panic` mirrors a Rust panic
(an `unwrap` on a failed conversion). -/
inductive DecRes (α : Type) where
  | ok (v : α)
  | err (msg : String)
  | panic
deriving Repr

/-- `BencodeVal` from src/bencode.rs:5-26.  The Rust `HashMap` of a dict is
represented as its insertion sequence with replace-on-duplicate semantics
(`dictInsert`), which determines the same `get` function as the `HashMap`. -/
inductive BencodeVal where
  | int (index : Nat) (int : Int) (size : Nat)
  | str (index : Nat) (byte_str : List Nat) (size : Nat)
  | list (index : Nat) (list : List BencodeVal) (size : Nat)
  | dict (index : Nat) (dict : List (List Nat × BencodeVal)) (size : Nat)
deriving Repr

/-- The `size` field common to the four variants. -/
def BencodeVal.size : BencodeVal → Nat
  | .int _ _ s => s
  | .str _ _ s => s
  | .list _ _ s => s
  | .dict _ _ s => s

/-- The `index` field common to the four variants. -/
def BencodeVal.index : BencodeVal → Nat
  | .int i _ _ => i
  | .str i _ _ => i
  | .list i _ _ => i
  | .dict i _ _ => i

/-- The re-tagging the list/dict loops perform on a freshly decoded child
(src/bencode.rs:209-258 and 338-387): rebuild the value with its `index`
field set to the child's position, keeping payload and `size`. -/
def setIndex : BencodeVal → Nat → BencodeVal
  | .int _ n s, i => .int i n s
  | .str _ b s, i => .str i b s
  | .list _ l s, i => .list i l s
  | .dict _ d s, i => .dict i d s

/-- `HashMap::insert` on the assoc-list representation: replace the binding
if the key is present, otherwise append. -/
def dictInsert (d : List (List Nat × BencodeVal)) (k : List Nat)
    (v : BencodeVal) : List (List Nat × BencodeVal) :=
  match d with
  | [] => [(k, v)]
  | (k2, v2) :: rest =>
    if k2 = k then (k, v) :: rest else (k2, v2) :: dictInsert rest k v

/-- `HashMap::get` on the assoc-list representation. -/
def dictGet (d : List (List Nat × BencodeVal)) (k : List Nat) :
    Option BencodeVal :=
  match d with
  | [] => none
  | (k2, v2) :: rest => if k2 = k then some v2 else dictGet rest k

/-- Numeric value of an ASCII digit string (no sign). -/
def digitsVal (l : List Nat) : Nat :=
  l.foldl (fun acc c => acc * 10 + (c - 48)) 0

/-- Rust `str::parse::<usize>()` on an ASCII byte sequence: optional leading
`+` (byte 43), then a non-empty run of digits whose value fits in `usize`
(`u64`); anything else is a parse error (`none`). -/
def rustParseUsizeDigits (ds : List Nat) : Option Nat :=
  if ds = [] then none
  else if ds.all isAsciiDigit then
    if digitsVal ds < 2 ^ 64 then some (digitsVal ds) else none
  else none

def rustParseUsize (l : List Nat) : Option Nat :=
  if l.head? = some 43 then rustParseUsizeDigits l.tail
  else rustParseUsizeDigits l

/-- The unsigned-digit-run part of Rust `str::parse::<i64>()`: a non-empty
digit run with value at most `bound`. -/
def rustParseI64Digits (bound : Nat) (ds : List Nat) : Option Nat :=
  if ds = [] then none
  else if ds.all isAsciiDigit then
    if digitsVal ds ≤ bound then some (digitsVal ds) else none
  else none

/-- Rust `str::parse::<i64>()` on an ASCII byte sequence: optional leading
`+` (43) or `-` (45), then a non-empty digit run whose value fits in `i64`
(`-2^63 ..= 2^63 - 1`). -/
def rustParseI64 (l : List Nat) : Option Int :=
  if l.head? = some 45 then
    (rustParseI64Digits (2 ^ 63) l.tail).map (fun n => -(n : Int))
  else if l.head? = some 43 then
    (rustParseI64Digits (2 ^ 63 - 1) l.tail).map (fun n => (n : Int))
  else
    (rustParseI64Digits (2 ^ 63 - 1) l).map (fun n => (n : Int))

/-- Embeds `decode_int` (src/bencode.rs:83-131).  The `from_utf8(..).unwrap()`
and `parse::<i64>().unwrap()` pair is modelled by `rustParseI64`: a byte
`≥ 0x80` at position 1 makes `from_utf8` fail and a malformed or overflowing
literal makes `parse` fail; either `unwrap` is a Rust panic, i.e. `.panic`. -/
def decode_int (bytes : List Nat) : DecRes BencodeVal :=
  if bytes.length < 3 then .err "reached eof"
  else if bytes.getD 0 0 ≠ 105 then
    .err ("unexpected delimiter: " ++ charStr (bytes.getD 0 0))
  else if (bytes.drop 1).take 2 = [48, 101] then .ok (.int 0 0 3)
  else if bytes.getD 1 0 = 48 then .err "no leading zeroes allowed"
  else if (bytes.drop 1).take 2 = [45, 48] then .err "negative zero not allowed"
  else
    match position (fun x => ! isAsciiDigit x) (bytes.drop 2) with
    | some index =>
      if bytes.getD (index + 2) 0 ≠ 101 then
        .err ("unexpected char: " ++ charStr (bytes.getD (index + 2) 0))
      else
        match rustParseI64 ((bytes.drop 1).take (index + 1)) with
        | some n => .ok (.int 0 n (index + 3))
        | none => .panic
    | none => .err "reached eof"

/-- Embeds `decode_str` (src/bencode.rs:133-160).  The
`parse::<usize>().unwrap()` is `rustParseUsize` with `.panic` on failure
(empty digit run or `usize` overflow). -/
def decode_str (bytes : List Nat) : DecRes BencodeVal :=
  if bytes.length < 2 then .err "reached eof"
  else
    match position (fun x => ! isAsciiDigit x) bytes with
    | some index =>
      if bytes.getD index 0 ≠ 58 then
        .err ("unexpected char: " ++ charStr (bytes.getD index 0))
      else
        match rustParseUsize (bytes.take index) with
        | some len =>
          if bytes.length ≤ len + index then .err "reached eof"
          else .ok (.str 0 ((bytes.drop (index + 1)).take len) (index + len + 1))
        | none => .panic
    | none => .err "reached eof"

/-!
`decode_list` (src/bencode.rs:162-263) and `decode_dict`
(src/bencode.rs:265-392) are mutually recursive; their `loop`s advance an
index by the size of each decoded child.  The embedding threads an explicit
fuel so the recursion is structural; `decodeF_total` below shows the
canonical fuel `3 * length + 3` always suffices, so the fuel never shows in
behavior.
The loops take the suffix `rest = bytes[index..]` together with the running
local `index`.  The `size = 0` guards are unreachable (every decoded value
has positive size, a conjunct of `decodeF_ok_spec`); they only make the
fuel bound easy.
-/

mutual

/-- The common child dispatch on a leading byte `c` of the suffix `rest`
(the identical `match bytes[index]` arms of src/bencode.rs:189-207 and
325-336): `i` → `decode_int`, `l` → `decode_list`, `d` → `decode_dict`,
digit → `decode_str`, anything else → the "unexpected char" error (in the
list loop the `e` arm is checked before this dispatch). -/
def decodeChildF : Nat → List Nat → Nat → Option (DecRes BencodeVal)
  | 0, _, _ => none
  | Nat.succ f, rest, c =>
    if c = 105 then some (decode_int rest)
    else if c = 108 then decode_listF f rest
    else if c = 100 then decode_dictF f rest
    else if isAsciiDigit c then some (decode_str rest)
    else some (.err ("unexpected char: " ++ charStr c))

/-- Embeds `decode_list` (src/bencode.rs:162-180 plus its loop). -/
def decode_listF : Nat → List Nat → Option (DecRes BencodeVal)
  | 0, _ => none
  | Nat.succ f, bytes =>
    if bytes.length < 2 then some (.err "reached eof")
    else if bytes.getD 0 0 ≠ 108 then
      some (.err ("unexpected char: " ++ charStr (bytes.getD 0 0)))
    else if bytes.getD 1 0 = 101 then some (.ok (.list 0 [] 2))
    else decode_list_loopF f (bytes.drop 1) 1 []

/-- The loop of `decode_list` (src/bencode.rs:184-262): dispatch on
`bytes[index]`, re-tag the child with its local index, push it, advance. -/
def decode_list_loopF :
    Nat → List Nat → Nat → List BencodeVal → Option (DecRes BencodeVal)
  | 0, _, _, _ => none
  | Nat.succ _, [], _, _ => some (.err "reached eof")
  | Nat.succ f, c :: t, index, v =>
    if c = 101 then some (.ok (.list 0 v (index + 1)))
    else
      match decodeChildF f (c :: t) c with
      | none => none
      | some (.err e) => some (.err e)
      | some .panic => some .panic
      | some (.ok val) =>
        if val.size = 0 then some (.err "unreachable: zero-sized value")
        else
          decode_list_loopF f ((c :: t).drop val.size) (index + val.size)
            (v ++ [setIndex val index])

/-- Embeds `decode_dict` (src/bencode.rs:265-283 plus its loop). -/
def decode_dictF : Nat → List Nat → Option (DecRes BencodeVal)
  | 0, _ => none
  | Nat.succ f, bytes =>
    if bytes.length < 2 then some (.err "reached eof")
    else if bytes.getD 0 0 ≠ 100 then
      some (.err ("unexpected char: " ++ charStr (bytes.getD 0 0)))
    else if bytes.getD 1 0 = 101 then some (.ok (.dict 0 [] 2))
    else decode_dict_loopF f (bytes.drop 1) 1 []

/-- The loop of `decode_dict` (src/bencode.rs:288-391): read a key string,
advance past it, dispatch on the value's first byte, re-tag the value with
its local index, insert, advance. -/
def decode_dict_loopF :
    Nat → List Nat → Nat → List (List Nat × BencodeVal) →
    Option (DecRes BencodeVal)
  | 0, _, _, _ => none
  | Nat.succ _, [], _, _ => some (.err "reached eof")
  | Nat.succ f, c :: t, index, d =>
    if c = 101 then some (.ok (.dict 0 d (index + 1)))
    else if ! isAsciiDigit c then
      some (.err ("unexpected char: " ++ charStr c))
    else
      match decode_str (c :: t) with
      | .err e => some (.err e)
      | .panic => some .panic
      | .ok kval =>
        match kval with
        | .str _ key ksize =>
          if ksize = 0 then some (.err "unreachable: zero-sized value")
          else
            match (c :: t).drop ksize with
            | [] => some (.err "reached eof")
            | c2 :: _ =>
              match decodeChildF f ((c :: t).drop ksize) c2 with
              | none => none
              | some (.err e) => some (.err e)
              | some .panic => some .panic
              | some (.ok val) =>
                if val.size = 0 then
                  some (.err "unreachable: zero-sized value")
                else
                  decode_dict_loopF f (((c :: t).drop ksize).drop val.size)
                    (index + ksize + val.size)
                    (dictInsert d key (setIndex val (index + ksize)))
        | _ => some (.err "not possible")

end

/-- Embeds the public entry point `decode` (src/bencode.rs:70-81).  The
`.getD .panic` default is unreachable: fuel `3 * length + 3` always
suffices (`decodeF_total`). -/
def decode (bytes : List Nat) : DecRes BencodeVal :=
  match bytes.head? with
  | some c =>
    if c = 105 then decode_int bytes
    else if c = 108 then (decode_listF (3 * bytes.length + 3) bytes).getD .panic
    else if c = 100 then (decode_dictF (3 * bytes.length + 3) bytes).getD .panic
    else if isAsciiDigit c then decode_str bytes
    else .err ("unexpected char: " ++ charStr c)
  | none => .err "reached eof"

/-- Validity of a byte sequence as UTF-8 (the domain of `str::from_utf8`,
used by src/lib.rs).  Only success/failure of `from_utf8` matters in the
embedded reader, so the decoded characters are not produced. -/
def isValidUtf8 : List Nat → Bool
  | [] => true
  | c :: rest =>
    if c ≤ 127 then isValidUtf8 rest
    else if 194 ≤ c && c ≤ 223 then
      match rest with
      | c1 :: rest2 => (128 ≤ c1 && c1 ≤ 191) && isValidUtf8 rest2
      | [] => false
    else if 224 ≤ c && c ≤ 239 then
      match rest with
      | c1 :: c2 :: rest2 =>
        (if c = 224 then 160 ≤ c1 && c1 ≤ 191
         else if c = 237 then 128 ≤ c1 && c1 ≤ 159
         else 128 ≤ c1 && c1 ≤ 191) &&
        (128 ≤ c2 && c2 ≤ 191) && isValidUtf8 rest2
      | _ => false
    else if 240 ≤ c && c ≤ 244 then
      match rest with
      | c1 :: c2 :: c3 :: rest2 =>
        (if c = 240 then 144 ≤ c1 && c1 ≤ 191
         else if c = 244 then 128 ≤ c1 && c1 ≤ 143
         else 128 ≤ c1 && c1 ≤ 191) &&
        (128 ≤ c2 && c2 ≤ 191) && (128 ≤ c3 && c3 ≤ 191) && isValidUtf8 rest2
      | _ => false
    else false

/-- Embeds the prefix of `TorrentMetaInfo::new` (src/lib.rs:38-88) through
the info-hash computation: decode the buffer, require a dict root, extract
`announce` (UTF-8 checked; the decoded text is otherwise unused here),
locate the `info` entry (must be a dict), slice the original buffer with
its recorded offset and size, and apply the SHA-1 primitive `sha1` — a
black-box parameter, as the spec treats SHA-1.  The `Utf8Error` propagated
by `str::from_utf8(..)?` is represented by a stand-in message.  Later field
extraction (name, piece length, pieces, ...) cannot change whether or what
the info-hash step hashes, so it is not modelled.  The Rust slice
`&contents[index..index + size]` is in bounds whenever `decode` succeeded
(see `decode_ok_main`), matching `drop`/`take` here. -/
def readInfoHash (sha1 : List Nat → List Nat) (contents : List Nat) :
    DecRes (List Nat) :=
  match decode contents with
  | .err e => .err e
  | .panic => .panic
  | .ok root =>
    match root with
    | .dict _ d _ =>
      match dictGet d (strB "announce") with
      | some av =>
        match av with
        | .str _ bs _ =>
          if isValidUtf8 bs then
            match dictGet d (strB "info") with
            | some iv =>
              match iv with
              | .dict idx _ sz => .ok (sha1 ((contents.drop idx).take sz))
              | _ => .err "info should be a dictionary"
            | none => .err "info dict not found in metainfo dictionary"
          else .err "announce is not valid UTF-8"
        | _ => .err "announce should be a UTF-8 encoded string"
      | none => .err "announce not found in metainfo dictionary"
    | _ => .err "should be a dictionary"

/-! ### download.rs / main.rs data model -/

/-- `JobState` (src/download.rs:118-122). -/
inductive JobState where
  | done
  | downloading
  | available
deriving DecidableEq, Repr

/-- `Piece` (src/download.rs:124-130).  A `SocketAddr` is abstracted as a
`Nat` identifier; `index` is a `u32` value and `length` a `u64` value. -/
structure Piece where
  index : Nat
  peers : List Nat
  job_state : JobState
  length : Nat
  hash : List Nat
deriving Repr

/-- `Piece::new` (src/download.rs:153-161). -/
def Piece.new (index : Nat) (length : Nat) (hash : List Nat) : Piece :=
  ⟨index, [], .available, length, hash⟩

/-- The `u64` value of an `i64` value under an `as u64` cast (wraps mod
`2^64`; `Int.emod` is non-negative, so `toNat` is exact). -/
def u64ofI64 (x : Int) : Nat := (x % (2 ^ 64 : Int)).toNat

/-- One run of the piece-building loop of `run` (src/main.rs:40-56, and
identically 60-76 for each file of multi-file mode) for a payload of `len`
bytes: `len / piece_length` full pieces (the `for` loop; an `i64` range with
a non-positive bound is empty), then one remainder piece if
`len % piece_length != 0`.  `/` and `%` are Rust `i64` truncated
division/remainder (`Int.tdiv`/`Int.tmod`).  The loop variable `index` is a
`u32`, hence the `% 2 ^ 32`; `metainfo.info.pieces[index as usize]` panics
(`none`) when the hash table is too short.

`fullPieces` is the `for` loop after `k` iterations (pieces `0..k-1`, each of
the full `piece_length`); `buildPiecesFor` runs it `len / piece_length` times
and then pushes the remainder piece if `len % piece_length != 0`. -/
def fullPieces (piece_length : Int) (hashes : List (List Nat)) :
    Nat → Option (List Piece)
  | 0 => some []
  | k + 1 =>
    match fullPieces piece_length hashes k, hashes.get? (k % 2 ^ 32) with
    | some ps, some h =>
      some (ps ++ [Piece.new (k % 2 ^ 32) (u64ofI64 piece_length) h])
    | _, _ => none

def buildPiecesFor (len piece_length : Int) (hashes : List (List Nat)) :
    Option (List Piece) :=
  match fullPieces piece_length hashes ((len.tdiv piece_length).toNat) with
  | none => none
  | some ps =>
    if len.tmod piece_length ≠ 0 then
      match hashes.get? ((len.tdiv piece_length).toNat % 2 ^ 32) with
      | none => none
      | some h =>
        some (ps ++ [Piece.new ((len.tdiv piece_length).toNat % 2 ^ 32)
          (u64ofI64 (len.tmod piece_length)) h])
    else some ps

/-- The multi-file branch of `run` (src/main.rs:57-78): the per-file loop,
with `index` restarting at 0 for every file, appending each file's pieces. -/
def buildPiecesMulti (files : List Int) (piece_length : Int)
    (hashes : List (List Nat)) : Option (List Piece) :=
  match files with
  | [] => some []
  | l :: rest =>
    match buildPiecesFor l piece_length hashes,
          buildPiecesMulti rest piece_length hashes with
    | some a, some b => some (a ++ b)
    | _, _ => none

/-- The piece-table construction of `run` (src/main.rs:36-78): single-file
mode when `length` is present, else multi-file mode, else no pieces. -/
def runPieces (length? : Option Int) (files? : Option (List Int))
    (piece_length : Int) (hashes : List (List Nat)) : Option (List Piece) :=
  match length? with
  | some l => buildPiecesFor l piece_length hashes
  | none =>
    match files? with
    | some fs => buildPiecesMulti fs piece_length hashes
    | none => some []

/-- `Job` (src/download.rs:29-34): `index` is `u32`, `length` and
`downloaded_length` are `u64`. -/
structure Job where
  index : Nat
  length : Nat
  downloaded_length : Nat
  hash : List Nat
deriving Repr

/-- `ManagerMsg` (src/download.rs:36-43). -/
inductive ManagerMsg where
  | jobMsg (index : Nat) (length : Nat) (hash : List Nat)
  | done
deriving Repr

/-- `ThreadState` (src/download.rs:449-453). -/
inductive ThreadState where
  | dead
  | alive
deriving DecidableEq, Repr

/-- Big-endian byte array of a `u32` value (`u32::to_be` followed by the
transmute to `[u8; 4]`). -/
def be32 (n : Nat) : List Nat :=
  [n / 2 ^ 24 % 256, n / 2 ^ 16 % 256, n / 2 ^ 8 % 256, n % 256]

/-- Big-endian value of a byte list (used to read message fields back). -/
def readBe32 (l : List Nat) : Nat := l.foldl (fun acc x => acc * 256 + x) 0

/-- Release-mode wrap-around `u64` subtraction for canonical values
`a, b < 2 ^ 64` (the `length - downloaded_length` subtractions in
src/download.rs). -/
def u64wrapSub (a b : Nat) : Nat := (a + 2 ^ 64 - b) % 2 ^ 64

/-- Embeds `request_block` (src/download.rs:379-409): when a job is at the
front of the queue, the 17-byte message written to the stream — length
prefix 13, id 6, then `index`, `begin` and `req_len`, each big-endian
`u32`.  `length_left as u32` truncates mod `2 ^ 32`; `2 << 14 = 32768`.
`none` means the queue was empty and nothing was written. -/
def request_block_msg (job_queue : List Job) : Option (List Nat) :=
  match job_queue with
  | [] => none
  | j :: _ =>
    let length_left := u64wrapSub j.length j.downloaded_length
    let req_len := min (length_left % 2 ^ 32) (2 <<< 14)
    let beginOff := j.downloaded_length % 2 ^ 32
    some (be32 13 ++ [6] ++ be32 (j.index % 2 ^ 32) ++ be32 beginOff ++
          be32 req_len)

/-- Worker-side mutable state threaded through `handle_peer_msg`
(src/download.rs:77-78): the job queue and the accumulated piece buffer. -/
structure WorkerSt where
  job_queue : List Job
  piece_buffer : List Nat
deriving Repr

/-- Observable outcome of one `handle_piece_msg` call: the new worker
state, the `WorkerMsg::Piece {index, buffer}` sent to the coordinator (if
any), the request message written by `request_block` (if any), and the
returned `ThreadState`. -/
structure PieceMsgResult where
  st : WorkerSt
  sent : Option (Nat × List Nat)
  request : Option (List Nat)
  thread : ThreadState
deriving Repr

/-- Embeds `handle_piece_msg` (src/download.rs:455-517) as a state
transition.  `sha1` is the black-box SHA-1 primitive; `reply` is the
message `from_manager.recv()` would deliver on the success path (a
disconnected channel, the `_ => panic!("impossible")` arm, is outside this
per-call model).  `&payload[8..]` panics (`none`) when the payload is
shorter than 8 bytes.  Note the mismatch arm (src/download.rs:508-511)
resets `downloaded_length` but leaves `piece_buffer` as extended. -/
def handle_piece_msg (sha1 : List Nat → List Nat)
    (payload? : Option (List Nat)) (reply : ManagerMsg) (st : WorkerSt) :
    Option PieceMsgResult :=
  match payload? with
  | none => some ⟨st, none, none, .alive⟩
  | some payload =>
    if payload.length < 8 then none
    else
      let block := payload.drop 8
      let buf1 := st.piece_buffer ++ block
      match st.job_queue with
      | [] => some ⟨⟨[], buf1⟩, none, none, .alive⟩
      | j :: rest =>
        let dl1 := (j.downloaded_length + block.length) % 2 ^ 64
        let length_left := u64wrapSub j.length dl1
        if length_left ≠ 0 then
          let q1 := { j with downloaded_length := dl1 } :: rest
          some ⟨⟨q1, buf1⟩, none, request_block_msg q1, .alive⟩
        else
          if sha1 buf1 = j.hash then
            match reply with
            | .jobMsg i l h =>
              let q2 := rest ++ [Job.mk i l 0 h]
              some ⟨⟨q2, []⟩, some (j.index, buf1), request_block_msg q2,
                    .alive⟩
            | .done =>
              some ⟨⟨{ j with downloaded_length := dl1 } :: rest, []⟩,
                    some (j.index, buf1), none, .dead⟩
          else
            let q4 := { j with downloaded_length := 0 } :: rest
            some ⟨⟨q4, buf1⟩, none, request_block_msg q4, .alive⟩

/-- Embeds `give_out_job` (src/download.rs:519-538): scan the pieces in
order; at the first piece that is `Available` and whose `peers` contain the
worker's socket, send `JobMsg` and mark it `Downloading`; return whether a
job was handed out.  Later pieces are untouched (the Rust `return true`). -/
def give_out_job (pieces : List Piece) (wsock : Nat) :
    List Piece × Option ManagerMsg × Bool :=
  match pieces with
  | [] => ([], none, false)
  | p :: rest =>
    if p.job_state = .available && p.peers.any (· = wsock) then
      ({ p with job_state := .downloading } :: rest,
       some (.jobMsg p.index p.length p.hash), true)
    else
      let r := give_out_job rest wsock
      (p :: r.1, r.2.1, r.2.2)

/-- Modelled from the spec: "scan pieces in current (rarity-sorted) order;
return the first one with `state == Available` whose `owners` contains this
worker's socket" — the position that scan selects. -/
def give_out_job_spec (pieces : List Piece) (wsock : Nat) : Option Nat :=
  pieces.findIdx? (fun p => p.job_state = .available && p.peers.any (· = wsock))

/-- The two coordinator actions of `download_from` that can hand out jobs
(src/download.rs:183-234). -/
inductive CoordEvent where
  | assignInit (wsock : Nat)
  | pieceDone (wsock : Nat) (index : Nat)

/-- One coordinator step.  `assignInit w` is one `give_out_job` call of the
initial dispatch (src/download.rs:196-201); its failure is the
`panic!("no more jobs. impossible")`, i.e. `none`.  `pieceDone w i` is the
`WorkerMsg::Piece` arm (src/download.rs:204-232): find the piece with that
index (`.unwrap()` panic, `none`, when absent), mark it `Done`, then
`give_out_job` for the reporting worker (a `false` result is not a panic
there).  The second component records, as ghost data for stating the
assignment invariant, the `(worker, piece position)` pair of the assignment
made, if any. -/
def coordStep (pieces : List Piece) :
    CoordEvent → Option (List Piece × List (Nat × Nat))
  | .assignInit w =>
    let r := give_out_job pieces w
    if r.2.2 = true then
      some (r.1, match give_out_job_spec pieces w with
                 | some q => [(w, q)]
                 | none => [])
    else none
  | .pieceDone w i =>
    match pieces.findIdx? (fun p => p.index = i) with
    | none => none
    | some q =>
      match pieces.get? q with
      | none => none
      | some p =>
        let ps2 := pieces.set q { p with job_state := .done }
        let r := give_out_job ps2 w
        some (r.1, if r.2.2 = true then
                     match give_out_job_spec ps2 w with
                     | some q2 => [(w, q2)]
                     | none => []
                   else [])

/-- The coordinator processing a sequence of events, accumulating the ghost
assignment records. -/
def coordRun (pieces : List Piece) (events : List CoordEvent) :
    Option (List Piece × List (Nat × Nat)) :=
  match events with
  | [] => some (pieces, [])
  | e :: rest =>
    match coordStep pieces e with
    | none => none
    | some (ps2, a) =>
      match coordRun ps2 rest with
      | none => none
      | some (fin, as2) => some (fin, a ++ as2)

/-- `pieces[k].peers.push(socket)` with the `Vec` indexing panic (`none`)
when `k` is out of range (src/download.rs:189). -/
def pushOwner (pieces : List Piece) (sock : Nat) (k : Nat) :
    Option (List Piece) :=
  match pieces.get? k with
  | some p => some (pieces.set k { p with peers := p.peers ++ [sock] })
  | none => none

/-- The inner `for j in 0..8` of the Bitfield arm (src/download.rs:187-191),
over the remaining bit positions `js`. -/
def processBits (sock b i : Nat) : List Nat → List Piece →
    Option (List Piece)
  | [], ps => some ps
  | j :: js, ps =>
    if (128 >>> j) &&& b ≠ 0 then
      match pushOwner ps sock (i * 8 + j) with
      | some ps2 => processBits sock b i js ps2
      | none => none
    else processBits sock b i js ps

/-- The outer `for (i, byte) in bitfield.iter().enumerate()` of the
Bitfield arm (src/download.rs:186-192), starting at byte index `i`. -/
def processBytesFrom (sock : Nat) : List Nat → Nat → List Piece →
    Option (List Piece)
  | [], _, ps => some ps
  | b :: rest, i, ps =>
    match processBits sock b i (List.range 8) ps with
    | some ps2 => processBytesFrom sock rest (i + 1) ps2
    | none => none

/-- Embeds the coordinator's Bitfield processing (src/download.rs:185-192):
for every set bit (most-significant bit of byte 0 is piece 0) push the
sender's socket onto that piece's `peers`; `none` is the out-of-range
`Vec` indexing panic. -/
def processBitfield (pieces : List Piece) (sock : Nat)
    (bitfield : List Nat) : Option (List Piece) :=
  processBytesFrom sock bitfield 0 pieces

/-- The slice/re-decode property, relative to the buffer each container was
decoded against: every direct child `c` of a container decoded from local
buffer `b` records an offset `c.index` into `b` and a size `c.size` such
that the slice `b[c.index .. c.index + c.size]` re-decodes to `c` itself
(up to the root `index` tag, which a fresh decode sets to 0), and the same
holds recursively for `c`'s children against `c`'s own local buffer
`b.drop c.index`. -/
inductive SliceOk : List Nat → BencodeVal → Prop where
  | int : ∀ b i n s, SliceOk b (.int i n s)
  | str : ∀ b i bs s, SliceOk b (.str i bs s)
  | list : ∀ b i l s,
      (∀ c ∈ l, decode ((b.drop c.index).take c.size) = .ok (setIndex c 0)) →
      (∀ c ∈ l, SliceOk (b.drop c.index) c) →
      SliceOk b (.list i l s)
  | dict : ∀ b i d s,
      (∀ kv ∈ d,
        decode ((b.drop kv.2.index).take kv.2.size) = .ok (setIndex kv.2 0)) →
      (∀ kv ∈ d, SliceOk (b.drop kv.2.index) kv.2) →
      SliceOk b (.dict i d s)

/-- Number of ghost assignment records naming piece position `q`. -/
def countAt (asgn : List (Nat × Nat)) (q : Nat) : Nat :=
  asgn.countP (fun a => a.2 = q)

/-- The assignment invariant over the coordinator's piece table and the
ghost assignment records: an `Available` piece was never assigned, a
`Downloading` piece was assigned exactly once, and no piece is ever
assigned twice. -/
def AssignInv (pieces : List Piece) (asgn : List (Nat × Nat)) : Prop :=
  ∀ q p, pieces.get? q = some p →
    (p.job_state = .available → countAt asgn q = 0) ∧
    (p.job_state = .downloading → countAt asgn q = 1) ∧
    countAt asgn q ≤ 1

example : decode (strB "le") = .ok (.list 0 [] 2) := rfl
example : decode (strB "de") = .ok (.dict 0 [] 2) := rfl
example : decode (strB "li1ei2ei3ee") =
    .ok (.list 0 [.int 1 1 3, .int 4 2 3, .int 7 3 3] 11) := rfl
example : decode (strB "d3:cow3:moo4:spam4:eggse") =
    .ok (.dict 0 [(strB "cow", .str 6 (strB "moo") 5),
                  (strB "spam", .str 17 (strB "eggs") 6)] 24) := rfl
example : decode (strB "d4:infod1:xi1eee") =
    .ok (.dict 0 [(strB "info", .dict 7 [(strB "x", .int 4 1 3)] 8)] 16) := rfl
example : decode (strB "ld1:xdeee") =
    .ok (.list 0 [.dict 1 [(strB "x", .dict 4 [] 2)] 7] 9) := rfl
example : decode (strB "i42e") = .ok (.int 0 42 4) := rfl
example : decode_int (strB "i0e") = .ok (.int 0 0 3) := rfl
example : decode_int (strB "i-7e") = .ok (.int 0 (-7) 4) := rfl
example : decode_int (strB "i01e") = .err "no leading zeroes allowed" := rfl
example : decode_int (strB "i-0e") = .err "negative zero not allowed" := rfl
example : decode_int (strB "i-e") = .panic := rfl
example : decode_str (strB "4:spam") = .ok (.str 0 (strB "spam") 6) := rfl
example : decode_str (strB "0:") = .ok (.str 0 [] 2) := rfl
example : decode_str (strB "3:ab") = .err "reached eof" := rfl
example : decode_str (strB "03:abc") = .ok (.str 0 (strB "abc") 6) := rfl

/-! ### Helper lemmas -/

theorem position_append_first (p : Nat → Bool) (l : List Nat) (x : Nat)
    (t : List Nat) (hl : ∀ c ∈ l, p c = false) (hx : p x = true) :
    position p (l ++ x :: t) = some l.length := by
  induction l with
  | nil => simp [position, hx]
  | cons a l ih =>
    have ha := hl a (by simp)
    have ih2 := ih (fun c hc => hl c (by simp [hc]))
    simp [position, ha, ih2]

theorem getD_append_cons (l : List Nat) (x : Nat) (t : List Nat) :
    (l ++ x :: t).getD l.length 0 = x := by
  induction l with
  | nil => rfl
  | cons a l ih => simpa using ih

theorem u64wrapSub_of_le {a b : Nat} (hba : b ≤ a) (ha : a < 2 ^ 64) :
    u64wrapSub a b = a - b := by
  unfold u64wrapSub
  omega

theorem be32_readBe32 {x : Nat} (h : x < 2 ^ 32) : readBe32 (be32 x) = x := by
  simp [readBe32, be32, List.foldl]
  omega

theorem ceil_div_split {L p : Nat} (hp : 0 < p) :
    (L + p - 1) / p = L / p + (if L % p = 0 then 0 else 1) := by
  have hdm := Nat.div_add_mod L p
  by_cases h : L % p = 0
  · rw [if_pos h]
    rcases Nat.eq_zero_or_pos L with hL | hL
    · subst hL
      simp [Nat.div_eq_of_lt (show p - 1 < p by omega)]
    · have he : L + p - 1 = (p - 1) + p * (L / p) := by omega
      rw [he, Nat.add_mul_div_left _ _ hp, Nat.div_eq_of_lt (by omega)]
      omega
  · rw [if_neg h]
    have hr : L % p < p := Nat.mod_lt _ hp
    have he : L + p - 1 = (L % p - 1) + p * (L / p + 1) := by
      rw [Nat.mul_succ]
      omega
    rw [he, Nat.add_mul_div_left _ _ hp, Nat.div_eq_of_lt (by omega)]
    omega

theorem u64ofI64_natCast {n : Nat} (h : n < 2 ^ 64) : u64ofI64 (n : Int) = n := by
  unfold u64ofI64
  rw [Int.emod_eq_of_lt (by positivity) (by exact_mod_cast h)]
  simp

theorem fullPieces_spec (pl : Int) (hashes : List (List Nat)) :
    ∀ n, n ≤ hashes.length → n ≤ 2 ^ 32 →
    ∃ ps, fullPieces pl hashes n = some ps ∧ ps.length = n ∧
      (∀ k, k < n → ∃ q, ps.get? k = some q ∧ q.length = u64ofI64 pl) ∧
      (ps.map Piece.length).sum = n * u64ofI64 pl := by
  intro n
  induction n with
  | zero =>
    intro _ _
    exact ⟨[], rfl, rfl, by omega, by simp⟩
  | succ k ih =>
    intro h1 h2
    obtain ⟨ps, hps, hlen, hall, hsum⟩ := ih (by omega) (by omega)
    have hk : k % 2 ^ 32 = k := Nat.mod_eq_of_lt (by omega)
    obtain ⟨hsh, hh⟩ : ∃ hsh, hashes.get? k = some hsh := by
      rw [List.get?_eq_get (show k < hashes.length by omega)]
      exact ⟨_, rfl⟩
    refine ⟨ps ++ [Piece.new k (u64ofI64 pl) hsh], ?_, by simp [hlen], ?_, ?_⟩
    · unfold fullPieces
      rw [hk, hps, hh]
    · intro k2 hk2
      by_cases hlt : k2 < k
      · obtain ⟨q, hq, hql⟩ := hall k2 hlt
        exact ⟨q, by rw [List.get?_append (by omega)]; exact hq, hql⟩
      · have hke : k2 = k := by omega
        subst hke
        refine ⟨Piece.new k2 (u64ofI64 pl) hsh, ?_, rfl⟩
        rw [List.get?_append_right (by omega)]
        simp [hlen]
    · simp only [List.map_append, List.sum_append, hsum]
      simp [Piece.new, Nat.succ_mul]

theorem buildPiecesFor_spec (L p : Nat) (hashes : List (List Nat))
    (hp : 0 < p) (hp63 : p < 2 ^ 63) (hL : L < 2 ^ 63)
    (hlen : (L + p - 1) / p ≤ hashes.length)
    (h32 : (L + p - 1) / p ≤ 2 ^ 32) :
    ∃ pieces, buildPiecesFor (L : Int) (p : Int) hashes = some pieces ∧
      pieces.length = (L + p - 1) / p ∧
      (∀ k, k + 1 < pieces.length →
        ∃ q, pieces.get? k = some q ∧ q.length = p) ∧
      (pieces.map Piece.length).sum = L := by
  have hceil := ceil_div_split (L := L) hp
  have hdm := Nat.div_add_mod L p
  have hup : u64ofI64 (p : Int) = p := u64ofI64_natCast (by omega)
  have hdiv_le : L / p ≤ (L + p - 1) / p :=
    Nat.div_le_div_right (by omega)
  obtain ⟨ps, hps, hpslen, hall, hsum⟩ :=
    fullPieces_spec (p : Int) hashes (L / p) (by omega) (by omega)
  have hcount : ((L : Int).tdiv (p : Int)).toNat = L / p := rfl
  have hrem : (L : Int).tmod (p : Int) = ((L % p : Nat) : Int) := rfl
  have hmul : L / p * p = p * (L / p) := Nat.mul_comm _ _
  by_cases h : L % p = 0
  · rw [if_pos h] at hceil
    refine ⟨ps, ?_, ?_, ?_, ?_⟩
    · simp only [buildPiecesFor]
      rw [hcount, hrem]
      simp only [hps]
      rw [if_neg (by simp [h])]
    · omega
    · intro k hk
      obtain ⟨q, hq, hql⟩ := hall k (by omega)
      exact ⟨q, hq, by rw [hql, hup]⟩
    · rw [hsum, hup]
      omega
  · rw [if_neg h] at hceil
    have hcc : L / p + 1 ≤ 2 ^ 32 := by omega
    have hcl : L / p < hashes.length := by omega
    obtain ⟨hsh, hh⟩ : ∃ hsh, hashes.get? (L / p) = some hsh := by
      rw [List.get?_eq_get hcl]
      exact ⟨_, rfl⟩
    have hkm : (L / p) % 2 ^ 32 = L / p := Nat.mod_eq_of_lt (by omega)
    have hurem : u64ofI64 ((L % p : Nat) : Int) = L % p :=
      u64ofI64_natCast (by omega)
    refine ⟨ps ++ [Piece.new (L / p) (u64ofI64 ((L % p : Nat) : Int)) hsh],
      ?_, by simp [hpslen]; omega, ?_, ?_⟩
    · simp only [buildPiecesFor]
      rw [hcount, hrem]
      simp only [hps]
      rw [if_pos (show ((L % p : Nat) : Int) ≠ 0 by exact_mod_cast h), hkm]
      simp only [hh]
    · intro k hk
      have hlen2 : (ps ++ [Piece.new (L / p) (u64ofI64 ((L % p : Nat) : Int))
          hsh]).length = L / p + 1 := by simp [hpslen]
      rw [hlen2] at hk
      obtain ⟨q, hq, hql⟩ := hall k (by omega)
      refine ⟨q, ?_, by rw [hql, hup]⟩
      rw [List.get?_append (by omega)]
      exact hq
    · simp only [List.map_append, List.sum_append, hsum, hup, List.map_cons,
        List.map_nil, List.sum_cons, List.sum_nil, Piece.new, hurem]
      omega

theorem buildPiecesMulti_spec (p : Nat) (hashes : List (List Nat))
    (hp : 0 < p) (hp63 : p < 2 ^ 63) :
    ∀ fs : List Nat,
    (∀ l ∈ fs, l < 2 ^ 63 ∧ (l + p - 1) / p ≤ hashes.length ∧
      (l + p - 1) / p ≤ 2 ^ 32) →
    ∃ pieces,
      buildPiecesMulti (fs.map (fun l : Nat => (l : Int))) (p : Int) hashes =
        some pieces ∧
      pieces.length = (fs.map (fun l => (l + p - 1) / p)).sum ∧
      (pieces.map Piece.length).sum = fs.sum := by
  intro fs
  induction fs with
  | nil => intro _; exact ⟨[], rfl, rfl, rfl⟩
  | cons l fs ih =>
    intro hfs
    obtain ⟨hl63, hllen, hl32⟩ := hfs l (by simp)
    obtain ⟨a, ha, halen, hasum⟩ :=
      buildPiecesFor_spec l p hashes hp hp63 hl63 hllen hl32
    obtain ⟨b, hb, hblen, hbsum⟩ := ih (fun x hx => hfs x (by simp [hx]))
    refine ⟨a ++ b, ?_, by simp [halen, hblen], by simp [hasum, hbsum]⟩
    simp only [List.map_cons, buildPiecesMulti]
    rw [ha, hb]

/-! ### Claim theorems -/

/-- C9: the Bencode decode entry point is not total over arbitrary inputs —
`i-e` runs `parse::<i64>()` on `"-"` and panics on the `unwrap`; an integer
literal exceeding the `i64` range panics; a string length field exceeding
`usize` panics.  Each is a panic, not a returned error (contrast `i42e`). -/
theorem c9_decode_panics :
    decode (strB "i-e") = .panic ∧
    decode (strB "i9223372036854775808e") = .panic ∧
    decode (strB "18446744073709551616:") = .panic ∧
    decode (strB "i42e") = .ok (.int 0 42 4) :=
  ⟨rfl, rfl, rfl, rfl⟩

/-- C6 counterexample: the decoder's errors carry no byte offset — inputs
that fail at different positions (`i` has nothing after the delimiter;
`5:abc` runs out after scanning past the colon; `li1e` ends mid-list)
return literally identical error values, which therefore cannot report the
offset at which the parser gave up. -/
theorem c6_counterexample :
    decode (strB "i") = .err "reached eof" ∧
    decode (strB "5:abc") = .err "reached eof" ∧
    decode (strB "li1e") = .err "reached eof" :=
  ⟨rfl, rfl, rfl⟩

/-- C6 amended: each failure mode yields its distinct reason string (for an
unexpected byte, the message includes the offending character), but no byte
offset accompanies it: inputs failing at different offsets can return
identical errors. -/
theorem c6_amended :
    decode [] = .err "reached eof" ∧
    decode (strB "x") = .err "unexpected char: x" ∧
    decode (strB "i01e") = .err "no leading zeroes allowed" ∧
    decode (strB "i-0e") = .err "negative zero not allowed" ∧
    decode (strB "i12x") = .err "unexpected char: x" ∧
    decode (strB "1a2") = .err "unexpected char: a" ∧
    decode (strB "3:ab") = .err "reached eof" ∧
    decode (strB "li1e") = .err "reached eof" ∧
    ("reached eof" ≠ "unexpected char: x" ∧
     "reached eof" ≠ "no leading zeroes allowed" ∧
     "reached eof" ≠ "negative zero not allowed" ∧
     "unexpected char: x" ≠ "no leading zeroes allowed" ∧
     "unexpected char: x" ≠ "negative zero not allowed" ∧
     "no leading zeroes allowed" ≠ "negative zero not allowed") ∧
    decode (strB "i") = .err "reached eof" ∧
    decode (strB "5:abc") = .err "reached eof" :=
  ⟨rfl, rfl, rfl, rfl, rfl, rfl, rfl, rfl,
   ⟨by decide, by decide, by decide, by decide, by decide, by decide⟩,
   rfl, rfl⟩

/-- C7 counterexample: a byte-string length field with a leading zero is
accepted, not rejected — `03:abc` decodes to the byte string `abc`
consuming all 6 bytes (only integer literals get a leading-zero check). -/
theorem c7_counterexample :
    decode (strB "03:abc") = .ok (.str 0 (strB "abc") 6) := rfl

/-- C7 amended: a length field with a leading zero is accepted — `03:abc`
decodes to the byte string `abc` consuming 6 bytes (only integer literals
reject leading zeros); and any length field (leading zeros or not) followed
by a colon and exactly `len` raw bytes decodes to that byte string,
consuming the whole input. -/
theorem c7_amended :
    decode (strB "03:abc") = .ok (.str 0 (strB "abc") 6) ∧
    ∀ ds payload : List Nat, ds ≠ [] → (∀ c ∈ ds, isAsciiDigit c = true) →
      payload.length = digitsVal ds → digitsVal ds < 2 ^ 64 →
      decode (ds ++ 58 :: payload) =
        .ok (.str 0 payload (ds.length + 1 + payload.length)) := by
  refine ⟨rfl, ?_⟩
  intro ds payload hne hdig hpay hlt
  obtain ⟨d, ds', rfl⟩ : ∃ d ds', ds = d :: ds' := by
    cases ds with
    | nil => exact absurd rfl hne
    | cons a b => exact ⟨a, b, rfl⟩
  have hd : isAsciiDigit d = true := hdig d (by simp)
  have hd' : 48 ≤ d ∧ d ≤ 57 := by
    simpa [isAsciiDigit, Bool.and_eq_true, decide_eq_true_eq] using hd
  have hpos : position (fun x => ! isAsciiDigit x)
      ((d :: ds') ++ 58 :: payload) = some (d :: ds').length := by
    refine position_append_first _ _ _ _ (fun c hc => ?_) (by decide)
    simp [hdig c hc]
  have hparse : rustParseUsize (((d :: ds') ++ 58 :: payload).take
      (d :: ds').length) = some (digitsVal (d :: ds')) := by
    have htake : ((d :: ds') ++ 58 :: payload).take (d :: ds').length =
        d :: ds' := List.take_left _ _
    rw [htake]
    unfold rustParseUsize
    rw [if_neg (show ¬(d :: ds').head? = some 43 by simp; omega)]
    unfold rustParseUsizeDigits
    rw [if_neg (by simp)]
    rw [if_pos (List.all_eq_true.mpr hdig), if_pos hlt]
  have hdrop : ((d :: ds') ++ 58 :: payload).drop ((d :: ds').length + 1) =
      payload := by
    have he : (d :: ds') ++ 58 :: payload = ((d :: ds') ++ [58]) ++ payload := by
      simp
    have hlen : ((d :: ds') ++ [58]).length = (d :: ds').length + 1 := by
      simp
    rw [he, ← hlen, List.drop_left]
  have htakep : payload.take (digitsVal (d :: ds')) = payload := by
    rw [← hpay, List.take_length]
  have hstr : decode_str ((d :: ds') ++ 58 :: payload) =
      .ok (.str 0 payload ((d :: ds').length + 1 + payload.length)) := by
    rw [decode_str]
    rw [if_neg (by simp; omega)]
    simp only [hpos]
    rw [getD_append_cons]
    rw [if_neg (by omega)]
    simp only [hparse]
    rw [if_neg (by simp; omega)]
    rw [hdrop, htakep]
    have hsz : (d :: ds').length + digitsVal (d :: ds') + 1 =
        (d :: ds').length + 1 + payload.length := by omega
    rw [hsz]
  rw [decode]
  have hhead : ((d :: ds') ++ 58 :: payload).head? = some d := rfl
  simp only [hhead]
  rw [if_neg (by omega), if_neg (by omega), if_neg (by omega), if_pos hd]
  exact hstr

/-- C7 amended witness: instance at the input `2:ab`. -/
theorem c7_amended_witness :
    decode ([50] ++ 58 :: strB "ab") = .ok (.str 0 (strB "ab") 4) :=
  c7_amended.2 [50] (strB "ab") (by decide) (by decide) (by decide) (by decide)

/-- C2 counterexample: on the input `d4:infod1:xi1eee` the descriptor
reader produces no info-hash at all — it fails earlier because the dict has
no `announce` key.  Moreover the buffer is only 16 bytes long, so offsets
`7..17` do not exist in it, and `d1:xi1ee` is 8 bytes, not 10. -/
theorem c2_counterexample :
    readInfoHash (fun l => l) (strB "d4:infod1:xi1eee") =
      .err "announce not found in metainfo dictionary" ∧
    (strB "d4:infod1:xi1eee").length = 16 ∧
    (strB "d1:xi1ee").length = 8 :=
  ⟨rfl, rfl, rfl⟩

/-- C2 amended: whatever the SHA-1 primitive is, on `d4:infod1:xi1eee` the
reader stops with "`announce` not found" before hashing; the decoded root
records the info dict at offset 7 with size 8, and slicing the original
buffer with that offset and size yields the 8 bytes `d1:xi1ee` (offsets
7..15), the bytes the reader's info-hash step feeds to SHA-1. -/
theorem c2_amended :
    ∀ sha1F : List Nat → List Nat,
      readInfoHash sha1F (strB "d4:infod1:xi1eee") =
        .err "announce not found in metainfo dictionary" ∧
      decode (strB "d4:infod1:xi1eee") =
        .ok (.dict 0 [(strB "info", .dict 7 [(strB "x", .int 4 1 3)] 8)] 16) ∧
      ((strB "d4:infod1:xi1eee").drop 7).take 8 = strB "d1:xi1ee" :=
  fun _ => ⟨rfl, rfl, rfl⟩

/-- C3 counterexample: with 32768 bytes remaining, the request message's
block length field holds 32768 (`2 << 14` is 32 KiB), not
`min(32768, 16 KiB) = 16384` as the claim states. -/
theorem c3_counterexample :
    request_block_msg [⟨0, 32768, 0, []⟩] =
      some (be32 13 ++ [6] ++ be32 0 ++ be32 0 ++ be32 32768) ∧
    readBe32 (be32 32768) = 32768 ∧
    (32768 : Nat) ≠ min 32768 16384 :=
  ⟨rfl, rfl, by decide⟩

/-- C3 amended: whenever a worker has an active job with some bytes
remaining (and no `u64`/`u32` wrap-around is in play), the request message
it sends is 17 bytes with id 6, and its block length field equals
`min(piece_length - downloaded_so_far, 2 << 14)` — that is, `min` with
32 KiB (32768), not 16 KiB. -/
theorem c3_amended :
    ∀ (j : Job) (rest : List Job),
      j.downloaded_length ≤ j.length →
      j.length - j.downloaded_length < 2 ^ 32 →
      j.length < 2 ^ 64 →
      ∃ msg, request_block_msg (j :: rest) = some msg ∧
        msg.length = 17 ∧ msg.getD 4 0 = 6 ∧
        readBe32 (msg.drop 13) =
          min (j.length - j.downloaded_length) (2 <<< 14) := by
  intro j rest h1 h2 h3
  have hw : u64wrapSub j.length j.downloaded_length =
      j.length - j.downloaded_length := u64wrapSub_of_le h1 h3
  have hmod : (j.length - j.downloaded_length) % 2 ^ 32 =
      j.length - j.downloaded_length := Nat.mod_eq_of_lt h2
  refine ⟨_, rfl, ?_, ?_, ?_⟩
  · simp [request_block_msg, be32]
  · simp [request_block_msg, be32, List.getD]
  · have hdrop : ∀ c : List Nat,
        (be32 13 ++ [6] ++ be32 (j.index % 2 ^ 32) ++
          be32 (j.downloaded_length % 2 ^ 32) ++ c).drop 13 = c := by
      intro c
      simp [be32]
    simp only [request_block_msg, hw, hmod]
    rw [hdrop]
    exact be32_readBe32 (by omega)

/-- C3 amended witness: instance at a job of length 100 with 10 bytes
downloaded. -/
theorem c3_amended_witness :
    ∃ msg, request_block_msg [⟨1, 100, 10, []⟩] = some msg ∧
      msg.length = 17 ∧ msg.getD 4 0 = 6 ∧
      readBe32 (msg.drop 13) =
        min ((100 : Nat) - 10) (2 <<< 14) :=
  c3_amended ⟨1, 100, 10, []⟩ [] (by decide) (by decide) (by decide)

/-- C4: the mismatch arm of `handle_piece_msg` does not discard the piece
buffer.  With the digest primitive instantiated to the identity function, a
2-byte piece whose expected digest is `[7, 7]`: the first receipt delivers
the wrong bytes `[1, 2]` — the worker resets `downloaded_length` to 0 and
re-requests from offset 0, but keeps `piece_buffer = [1, 2]`; the retry
then delivers the correct bytes `[7, 7]`, whose digest alone matches, yet
the worker hashes `[1, 2, 7, 7]`, fails again, and forwards nothing. -/
theorem c4_buffer_not_discarded :
    handle_piece_msg (fun l => l) (some [0, 0, 0, 0, 0, 0, 0, 0, 1, 2])
        .done ⟨[⟨0, 2, 0, [7, 7]⟩], []⟩ =
      some ⟨⟨[⟨0, 2, 0, [7, 7]⟩], [1, 2]⟩, none,
            some (be32 13 ++ [6] ++ be32 0 ++ be32 0 ++ be32 2), .alive⟩ ∧
    handle_piece_msg (fun l => l) (some [0, 0, 0, 0, 0, 0, 0, 0, 7, 7])
        .done ⟨[⟨0, 2, 0, [7, 7]⟩], [1, 2]⟩ =
      some ⟨⟨[⟨0, 2, 0, [7, 7]⟩], [1, 2, 7, 7]⟩, none,
            some (be32 13 ++ [6] ++ be32 0 ++ be32 0 ++ be32 2), .alive⟩ ∧
    (fun l : List Nat => l) [7, 7] = [7, 7] :=
  ⟨rfl, rfl, rfl⟩

/-- C5 counterexample: in multi-file mode (two files of 3 bytes each,
piece length 2) the builder emits 4 pieces, not
`ceil(total_length / piece_length) = ceil(6 / 2) = 3`, and the piece at
position 1 — not the last — has length 1, shorter than the piece length. -/
theorem c5_counterexample :
    runPieces none (some [3, 3]) 2 [[1], [2]] =
      some [Piece.new 0 2 [1], Piece.new 1 1 [2],
            Piece.new 0 2 [1], Piece.new 1 1 [2]] ∧
    [Piece.new 0 2 [1], Piece.new 1 1 [2], Piece.new 0 2 [1],
     Piece.new 1 1 [2]].length ≠ (3 + 3 + 2 - 1) / 2 ∧
    (Piece.new 1 1 [2]).length ≠ 2 :=
  ⟨rfl, by decide, by decide⟩

/-- C5 amended: in single-file mode the piece table has exactly
`ceil(total_length / piece_length)` pieces, every piece except possibly the
last has the full piece length, and the lengths sum to the total.  In
multi-file mode the table is built per file (the index restarting at 0 for
each file): the count is the sum over files of `ceil(file_length /
piece_length)` — so non-final entries can be short — and the lengths still
sum to the total.  (Hypotheses: a positive `i64` piece length, `i64`
lengths, and a hash table covering the pieces without `u32` index wrap.) -/
theorem c5_amended :
    (∀ (L p : Nat) (hashes : List (List Nat)) (files? : Option (List Int)),
      0 < p → p < 2 ^ 63 → L < 2 ^ 63 →
      (L + p - 1) / p ≤ hashes.length → (L + p - 1) / p ≤ 2 ^ 32 →
      ∃ pieces,
        runPieces (some (L : Int)) files? (p : Int) hashes = some pieces ∧
        pieces.length = (L + p - 1) / p ∧
        (∀ k, k + 1 < pieces.length →
          ∃ q, pieces.get? k = some q ∧ q.length = p) ∧
        (pieces.map Piece.length).sum = L) ∧
    (∀ (fs : List Nat) (p : Nat) (hashes : List (List Nat)),
      0 < p → p < 2 ^ 63 →
      (∀ l ∈ fs, l < 2 ^ 63 ∧ (l + p - 1) / p ≤ hashes.length ∧
        (l + p - 1) / p ≤ 2 ^ 32) →
      ∃ pieces,
        runPieces none (some (fs.map (fun l : Nat => (l : Int)))) (p : Int)
          hashes = some pieces ∧
        pieces.length = (fs.map (fun l => (l + p - 1) / p)).sum ∧
        (pieces.map Piece.length).sum = fs.sum) := by
  constructor
  · intro L p hashes files? hp hp63 hL hlen h32
    simpa only [runPieces] using
      buildPiecesFor_spec L p hashes hp hp63 hL hlen h32
  · intro fs p hashes hp hp63 hfs
    simpa only [runPieces] using
      buildPiecesMulti_spec p hashes hp hp63 fs hfs

/-- C5 amended witness: a single file of 3 bytes and a file list `[3]`,
both with piece length 2 and two hashes. -/
theorem c5_amended_witness :
    (∃ pieces,
      runPieces (some ((3 : Nat) : Int)) none ((2 : Nat) : Int) [[1], [2]] =
        some pieces ∧
      pieces.length = (3 + 2 - 1) / 2 ∧
      (∀ k, k + 1 < pieces.length →
        ∃ q, pieces.get? k = some q ∧ q.length = 2) ∧
      (pieces.map Piece.length).sum = 3) ∧
    (∃ pieces,
      runPieces none (some ([3].map (fun l : Nat => (l : Int))))
        ((2 : Nat) : Int) [[1], [2]] = some pieces ∧
      pieces.length = ([3].map (fun l => (l + 2 - 1) / 2)).sum ∧
      (pieces.map Piece.length).sum = [3].sum) :=
  ⟨c5_amended.1 3 2 [[1], [2]] none (by decide) (by decide) (by decide)
      (by decide) (by decide),
   c5_amended.2 [3] 2 [[1], [2]] (by decide) (by decide) (by decide)⟩

theorem pushOwner_length {ps ps2 : List Piece} {sock k : Nat}
    (h : pushOwner ps sock k = some ps2) : ps2.length = ps.length := by
  unfold pushOwner at h
  cases hg : ps.get? k with
  | none => rw [hg] at h; cases h
  | some p =>
    rw [hg] at h
    injection h with h
    rw [← h, List.length_set]

theorem processBits_length {sock b i : Nat} :
    ∀ {js : List Nat} {ps r : List Piece},
    processBits sock b i js ps = some r → r.length = ps.length := by
  intro js
  induction js with
  | nil =>
    intro ps r h
    injection h with h
    rw [h]
  | cons j js ih =>
    intro ps r h
    unfold processBits at h
    by_cases hb : (128 >>> j) &&& b ≠ 0
    · rw [if_pos hb] at h
      cases hp : pushOwner ps sock (i * 8 + j) with
      | none => rw [hp] at h; cases h
      | some ps2 =>
        rw [hp] at h
        rw [ih h, pushOwner_length hp]
    · rw [if_neg hb] at h
      exact ih h

theorem processBits_ok (sock b i : Nat) :
    ∀ (js : List Nat) (ps : List Piece),
    (∀ j ∈ js, (128 >>> j) &&& b ≠ 0 → i * 8 + j < ps.length) →
    ∃ r, processBits sock b i js ps = some r ∧ r.length = ps.length := by
  intro js
  induction js with
  | nil => intro ps _; exact ⟨ps, rfl, rfl⟩
  | cons j js ih =>
    intro ps hjs
    unfold processBits
    by_cases hb : (128 >>> j) &&& b ≠ 0
    · rw [if_pos hb]
      have hk : i * 8 + j < ps.length := hjs j (by simp) hb
      obtain ⟨p, hp⟩ : ∃ p, ps.get? (i * 8 + j) = some p :=
        ⟨_, List.get?_eq_get hk⟩
      have hpush : pushOwner ps sock (i * 8 + j) =
          some (ps.set (i * 8 + j) { p with peers := p.peers ++ [sock] }) := by
        unfold pushOwner
        rw [hp]
      simp only [hpush]
      obtain ⟨r, hr, hrl⟩ := ih (ps.set (i * 8 + j)
          { p with peers := p.peers ++ [sock] })
        (fun j2 hj2 hb2 => by
          rw [List.length_set]
          exact hjs j2 (by simp [hj2]) hb2)
      exact ⟨r, hr, by rw [hrl, List.length_set]⟩
    · rw [if_neg hb]
      exact ih ps (fun j2 hj2 hb2 => hjs j2 (by simp [hj2]) hb2)

theorem processBits_offending (sock b i : Nat) :
    ∀ (js : List Nat) (ps : List Piece),
    (∃ j ∈ js, (128 >>> j) &&& b ≠ 0 ∧ ps.length ≤ i * 8 + j) →
    processBits sock b i js ps = none := by
  intro js
  induction js with
  | nil =>
    intro ps h
    obtain ⟨j, hj, _⟩ := h
    cases hj
  | cons j js ih =>
    intro ps h
    obtain ⟨j2, hj2, hbit, hge⟩ := h
    unfold processBits
    rcases List.mem_cons.mp hj2 with rfl | hmem
    · rw [if_pos hbit]
      have hnone : ps.get? (i * 8 + j2) = none := List.get?_eq_none.mpr hge
      have hpush : pushOwner ps sock (i * 8 + j2) = none := by
        unfold pushOwner
        rw [hnone]
      simp only [hpush]
    · by_cases hb : (128 >>> j) &&& b ≠ 0
      · rw [if_pos hb]
        cases hp : pushOwner ps sock (i * 8 + j) with
        | none => simp only [hp]
        | some ps2 =>
          simp only [hp]
          exact ih ps2 ⟨j2, hmem, hbit, by rw [pushOwner_length hp]; exact hge⟩
      · rw [if_neg hb]
        exact ih ps ⟨j2, hmem, hbit, hge⟩

theorem processBytesFrom_ok (sock : Nat) :
    ∀ (bytes : List Nat) (i0 : Nat) (ps : List Piece),
    (∀ k j, k < bytes.length → j < 8 →
      (128 >>> j) &&& bytes.getD k 0 ≠ 0 → (i0 + k) * 8 + j < ps.length) →
    ∃ r, processBytesFrom sock bytes i0 ps = some r ∧
      r.length = ps.length := by
  intro bytes
  induction bytes with
  | nil => intro i0 ps _; exact ⟨ps, rfl, rfl⟩
  | cons b rest ih =>
    intro i0 ps hk
    obtain ⟨r1, hr1, hl1⟩ := processBits_ok sock b i0 (List.range 8) ps
      (fun j hj hbit => by
        have := hk 0 j (by simp) (List.mem_range.mp hj) (by simpa using hbit)
        simpa using this)
    obtain ⟨r2, hr2, hl2⟩ := ih (i0 + 1) r1
      (fun k j hkl hj hbit => by
        rw [hl1]
        have := hk (k + 1) j (by simpa using hkl) hj (by simpa using hbit)
        have he : i0 + 1 + k = i0 + (k + 1) := by omega
        rw [he]
        exact this)
    refine ⟨r2, ?_, by rw [hl2, hl1]⟩
    unfold processBytesFrom
    simp only [hr1]
    exact hr2

theorem processBytesFrom_offending (sock : Nat) :
    ∀ (bytes : List Nat) (i0 : Nat) (ps : List Piece),
    (∃ k j, k < bytes.length ∧ j < 8 ∧
      (128 >>> j) &&& bytes.getD k 0 ≠ 0 ∧ ps.length ≤ (i0 + k) * 8 + j) →
    processBytesFrom sock bytes i0 ps = none := by
  intro bytes
  induction bytes with
  | nil =>
    intro i0 ps h
    obtain ⟨k, j, hkl, _, _, _⟩ := h
    simp at hkl
  | cons b rest ih =>
    intro i0 ps h
    obtain ⟨k, j, hkl, hj, hbit, hge⟩ := h
    unfold processBytesFrom
    cases k with
    | zero =>
      have hnone : processBits sock b i0 (List.range 8) ps = none :=
        processBits_offending sock b i0 (List.range 8) ps
          ⟨j, List.mem_range.mpr hj, by simpa using hbit, by simpa using hge⟩
      simp only [hnone]
    | succ k2 =>
      cases hres : processBits sock b i0 (List.range 8) ps with
      | none => simp only [hres]
      | some ps2 =>
        simp only [hres]
        refine ih (i0 + 1) ps2 ⟨k2, j, by simpa using hkl, hj,
          by simpa using hbit, ?_⟩
        rw [processBits_length hres]
        have he : i0 + 1 + k2 = i0 + (k2 + 1) := by omega
        rw [he]
        exact hge

/-- C10: the coordinator's Bitfield processing is bounds-safe exactly under
the precondition that no set bit addresses a piece index `≥ len(pieces)`:
under that precondition every set bit's owner push succeeds (and the table
keeps its length), while any bitfield with a set bit at byte `i`, bit `j`
with `i * 8 + j ≥ len(pieces)` — e.g. a spare bit in the final byte — makes
the coordinator panic on the out-of-range `Vec` index (`none`). -/
theorem c10_bitfield_bounds :
    (∀ (pieces : List Piece) (sock : Nat) (bitfield : List Nat),
      (∀ i j, i < bitfield.length → j < 8 →
        (128 >>> j) &&& bitfield.getD i 0 ≠ 0 → i * 8 + j < pieces.length) →
      ∃ r, processBitfield pieces sock bitfield = some r ∧
        r.length = pieces.length) ∧
    (∀ (pieces : List Piece) (sock : Nat) (bitfield : List Nat),
      (∃ i j, i < bitfield.length ∧ j < 8 ∧
        (128 >>> j) &&& bitfield.getD i 0 ≠ 0 ∧
        pieces.length ≤ i * 8 + j) →
      processBitfield pieces sock bitfield = none) := by
  constructor
  · intro pieces sock bitfield hpre
    exact processBytesFrom_ok sock bitfield 0 pieces
      (fun k j hkl hj hbit => by
        have := hpre k j hkl hj hbit
        simpa using this)
  · intro pieces sock bitfield hpre
    obtain ⟨i, j, h1, h2, h3, h4⟩ := hpre
    exact processBytesFrom_offending sock bitfield 0 pieces
      ⟨i, j, h1, h2, h3, by simpa using h4⟩

/-- C10 witness: a single-piece table with bitfield byte `0b1100_0000`: bit
0 is in range, the spare bit 1 addresses piece 1 and panics. -/
theorem c10_bitfield_bounds_witness :
    processBitfield [Piece.new 0 1 []] 5 [192] = none :=
  c10_bitfield_bounds.2 [Piece.new 0 1 []] 5 [192]
    ⟨0, 1, by decide, by decide, by decide, by decide⟩

theorem gjob_spec_none : ∀ (pieces : List Piece) (w : Nat),
    give_out_job_spec pieces w = none →
    give_out_job pieces w = (pieces, none, false) := by
  intro pieces w
  induction pieces with
  | nil => intro _; rfl
  | cons p rest ih =>
    intro h
    unfold give_out_job_spec at h
    rw [List.findIdx?_cons, List.findIdx?_succ] at h
    unfold give_out_job
    split at h
    · cases h
    · next hcond =>
      rw [if_neg hcond]
      have hrest : give_out_job_spec rest w = none := by
        unfold give_out_job_spec
        simpa using h
      rw [ih hrest]

theorem gjob_spec_some : ∀ (pieces : List Piece) (w : Nat) (q : Nat),
    give_out_job_spec pieces w = some q →
    ∃ p, pieces.get? q = some p ∧ p.job_state = .available ∧
      p.peers.any (· = w) = true ∧
      give_out_job pieces w =
        (pieces.set q { p with job_state := .downloading },
         some (.jobMsg p.index p.length p.hash), true) := by
  intro pieces w
  induction pieces with
  | nil =>
    intro q h
    unfold give_out_job_spec at h
    rw [List.findIdx?_nil] at h
    cases h
  | cons p rest ih =>
    intro q h
    unfold give_out_job_spec at h
    rw [List.findIdx?_cons, List.findIdx?_succ] at h
    unfold give_out_job
    split at h
    · next hcond =>
      injection h with hq
      subst hq
      have hcond2 := hcond
      rw [Bool.and_eq_true] at hcond2
      obtain ⟨h1, h2⟩ := hcond2
      refine ⟨p, rfl, of_decide_eq_true h1, h2, ?_⟩
      rw [if_pos hcond]
      rfl
    · next hcond =>
      rw [if_neg hcond]
      obtain ⟨q2, hq2, hq⟩ := Option.map_eq_some'.mp h
      subst hq
      have hspec2 : give_out_job_spec rest w = some q2 := hq2
      obtain ⟨p2, hget2, hav2, hany2, heq2⟩ := ih q2 hspec2
      refine ⟨p2, by simpa using hget2, hav2, hany2, ?_⟩
      simp only [heq2, List.set]

theorem give_out_job_length (pieces : List Piece) (w : Nat) :
    (give_out_job pieces w).1.length = pieces.length := by
  cases hspec : give_out_job_spec pieces w with
  | none => rw [gjob_spec_none _ _ hspec]
  | some q =>
    obtain ⟨p, _, _, _, heq⟩ := gjob_spec_some _ _ _ hspec
    rw [heq]
    simp [List.length_set]

theorem countAt_append (a b : List (Nat × Nat)) (q : Nat) :
    countAt (a ++ b) q = countAt a q + countAt b q := by
  simp [countAt, List.countP_append]

theorem countAt_single_eq (w q : Nat) : countAt [(w, q)] q = 1 := by
  simp [countAt, List.countP_cons]

theorem countAt_single_ne {w q q2 : Nat} (h : q2 ≠ q) :
    countAt [(w, q)] q2 = 0 := by
  unfold countAt
  rw [List.countP_cons]
  simp [Ne.symm h]

theorem get?_some_lt {pieces : List Piece} {q : Nat} {p : Piece}
    (h : pieces.get? q = some p) : q < pieces.length := by
  by_contra hge
  rw [List.get?_eq_none.mpr (by omega)] at h
  cases h

theorem set_done_inv {pieces : List Piece} {asgn : List (Nat × Nat)} {q : Nat}
    {p : Piece} (hInv : AssignInv pieces asgn)
    (hget : pieces.get? q = some p) :
    AssignInv (pieces.set q { p with job_state := .done }) asgn := by
  intro q2 p2 hget2
  by_cases hq : q2 = q
  · subst hq
    have hlt : q2 < pieces.length := get?_some_lt hget
    rw [List.get?_set_eq_of_lt _ hlt] at hget2
    injection hget2 with hp2
    subst hp2
    obtain ⟨_, _, h3⟩ := hInv q2 p hget
    refine ⟨fun hav => ?_, fun hdl => ?_, h3⟩
    · simp at hav
    · simp at hdl
  · rw [List.get?_set_ne _ _ (Ne.symm hq)] at hget2
    exact hInv q2 p2 hget2

theorem avail_set_downloading_inv {pieces : List Piece}
    {asgn : List (Nat × Nat)} {q w : Nat} {p : Piece}
    (hInv : AssignInv pieces asgn) (hget : pieces.get? q = some p)
    (hav : p.job_state = .available) :
    AssignInv (pieces.set q { p with job_state := .downloading })
      (asgn ++ [(w, q)]) := by
  intro q2 p2 hget2
  by_cases hq : q2 = q
  · subst hq
    have hlt : q2 < pieces.length := get?_some_lt hget
    rw [List.get?_set_eq_of_lt _ hlt] at hget2
    injection hget2 with hp2
    subst hp2
    obtain ⟨h1, _, _⟩ := hInv q2 p hget
    have hc : countAt (asgn ++ [(w, q2)]) q2 = 1 := by
      rw [countAt_append, h1 hav, countAt_single_eq]
    refine ⟨fun hav2 => ?_, fun _ => hc, by omega⟩
    · simp at hav2
  · rw [List.get?_set_ne _ _ (Ne.symm hq)] at hget2
    obtain ⟨h1, h2, h3⟩ := hInv q2 p2 hget2
    have hc : countAt (asgn ++ [(w, q)]) q2 = countAt asgn q2 := by
      rw [countAt_append, countAt_single_ne hq]
      omega
    rw [hc]
    exact ⟨h1, h2, h3⟩

theorem coordStep_inv {pieces ps2 : List Piece} {asgn a : List (Nat × Nat)}
    {ev : CoordEvent} (hInv : AssignInv pieces asgn)
    (h : coordStep pieces ev = some (ps2, a)) :
    AssignInv ps2 (asgn ++ a) := by
  cases ev with
  | assignInit w =>
    simp only [coordStep] at h
    cases hspec : give_out_job_spec pieces w with
    | none =>
      rw [gjob_spec_none _ _ hspec] at h
      simp at h
    | some q =>
      obtain ⟨p, hget, hav, hany, heq⟩ := gjob_spec_some _ _ _ hspec
      rw [heq, hspec] at h
      simp at h
      obtain ⟨hps2, ha⟩ := h
      subst ha
      rw [← hps2]
      exact avail_set_downloading_inv hInv hget hav
  | pieceDone w i =>
    simp only [coordStep] at h
    cases hidx : pieces.findIdx? (fun p => p.index = i) with
    | none => rw [hidx] at h; cases h
    | some q =>
      rw [hidx] at h
      simp only [] at h
      cases hget : pieces.get? q with
      | none => rw [hget] at h; cases h
      | some p =>
        rw [hget] at h
        simp only [] at h
        have hInv2 : AssignInv (pieces.set q { p with job_state := .done })
            asgn := set_done_inv hInv hget
        cases hspec : give_out_job_spec
            (pieces.set q { p with job_state := .done }) w with
        | none =>
          rw [gjob_spec_none _ _ hspec] at h
          simp at h
          obtain ⟨hps2, ha⟩ := h
          subst ha
          rw [← hps2]
          simpa using hInv2
        | some q2 =>
          obtain ⟨p2, hget2, hav2, hany2, heq2⟩ := gjob_spec_some _ _ _ hspec
          rw [heq2, hspec] at h
          simp at h
          obtain ⟨hps2, ha⟩ := h
          subst ha
          rw [← hps2]
          exact avail_set_downloading_inv hInv2 hget2 hav2

theorem coordRun_inv : ∀ (events : List CoordEvent) (pieces : List Piece)
    (asgn0 : List (Nat × Nat)) (fin : List Piece) (asgn : List (Nat × Nat)),
    AssignInv pieces asgn0 → coordRun pieces events = some (fin, asgn) →
    AssignInv fin (asgn0 ++ asgn) := by
  intro events
  induction events with
  | nil =>
    intro pieces asgn0 fin asgn hInv h
    unfold coordRun at h
    injection h with h
    injection h with h1 h2
    subst h1
    subst h2
    simpa using hInv
  | cons e rest ih =>
    intro pieces asgn0 fin asgn hInv h
    unfold coordRun at h
    cases hstep : coordStep pieces e with
    | none => rw [hstep] at h; cases h
    | some pa =>
      obtain ⟨ps2, a⟩ := pa
      rw [hstep] at h
      simp only [] at h
      cases hrun : coordRun ps2 rest with
      | none => rw [hrun] at h; cases h
      | some fa =>
        obtain ⟨fin2, as2⟩ := fa
        rw [hrun] at h
        simp at h
        obtain ⟨h1, h2⟩ := h
        subst h1 h2
        have hrec := ih ps2 (asgn0 ++ a) fin2 as2
          (coordStep_inv hInv hstep) hrun
        rwa [List.append_assoc] at hrec

/-- C8: `give_out_job` scans the pieces in their current order and selects
exactly the first piece that is `Available` and owned by the requesting
worker, transitioning only that piece to `Downloading` (first conjunct:
none/some characterization against the spec's scan, `give_out_job_spec`).
Consequently, over any sequence of coordinator events starting from an
all-`Available` table, every piece position is assigned at most once, a
`Downloading` piece has been assigned exactly once (to the single worker of
that assignment record), and an `Available` piece never — so a piece in
`Downloading` or `Done` is never assigned again (second conjunct). -/
theorem c8_job_assignment :
    (∀ (pieces : List Piece) (w : Nat),
      (give_out_job_spec pieces w = none →
        give_out_job pieces w = (pieces, none, false)) ∧
      (∀ q, give_out_job_spec pieces w = some q →
        ∃ p, pieces.get? q = some p ∧ p.job_state = .available ∧
          p.peers.any (· = w) = true ∧
          give_out_job pieces w =
            (pieces.set q { p with job_state := .downloading },
             some (.jobMsg p.index p.length p.hash), true))) ∧
    (∀ (pieces0 fin : List Piece) (events : List CoordEvent)
        (asgn : List (Nat × Nat)),
      (∀ p ∈ pieces0, p.job_state = .available) →
      coordRun pieces0 events = some (fin, asgn) →
      ∀ q p, fin.get? q = some p →
        countAt asgn q ≤ 1 ∧
        (p.job_state = .downloading → countAt asgn q = 1) ∧
        (p.job_state = .available → countAt asgn q = 0)) := by
  constructor
  · intro pieces w
    exact ⟨gjob_spec_none pieces w, fun q h => gjob_spec_some pieces w q h⟩
  · intro pieces0 fin events asgn hall hrun q p hget
    have hInv0 : AssignInv pieces0 [] := by
      intro q2 p2 hget2
      have hav := hall p2 (List.get?_mem hget2)
      refine ⟨fun _ => rfl, fun hdl => ?_, by simp [countAt]⟩
      rw [hav] at hdl
      simp at hdl
    have hInv := coordRun_inv events pieces0 [] fin asgn hInv0 hrun
    rw [List.nil_append] at hInv
    obtain ⟨h1, h2, h3⟩ := hInv q p hget
    exact ⟨h3, h2, h1⟩

/-- C8 witness: a one-piece table owned by worker 5; after the initial
dispatch the piece is `Downloading` with exactly one assignment record. -/
theorem c8_job_assignment_witness :
    countAt [(5, 0)] 0 ≤ 1 ∧
    ((Piece.mk 0 [5] .downloading 1 [0]).job_state = .downloading →
      countAt [(5, 0)] 0 = 1) ∧
    ((Piece.mk 0 [5] .downloading 1 [0]).job_state = .available →
      countAt [(5, 0)] 0 = 0) :=
  c8_job_assignment.2 [Piece.mk 0 [5] .available 1 [0]]
    [Piece.mk 0 [5] .downloading 1 [0]] [.assignInit 5] [(5, 0)]
    (by decide) rfl 0 (Piece.mk 0 [5] .downloading 1 [0]) rfl

/-! ### C1 machinery: slices, `setIndex`, `position` -/

theorem setIndex_size (v : BencodeVal) (i : Nat) :
    (setIndex v i).size = v.size := by
  cases v <;> rfl

theorem setIndex_index (v : BencodeVal) (i : Nat) :
    (setIndex v i).index = i := by
  cases v <;> rfl

theorem setIndex_setIndex (v : BencodeVal) (i j : Nat) :
    setIndex (setIndex v i) j = setIndex v j := by
  cases v <;> rfl

theorem setIndex_self {v : BencodeVal} (h : v.index = 0) : setIndex v 0 = v := by
  cases v <;> simp [BencodeVal.index] at h <;> simp [setIndex, h]

theorem sliceOk_setIndex {b : List Nat} {v : BencodeVal} (i : Nat)
    (h : SliceOk b v) : SliceOk b (setIndex v i) := by
  cases h with
  | int => exact .int _ _ _ _
  | str => exact .str _ _ _ _
  | list _ _ _ _ h1 h2 => exact .list _ _ _ _ h1 h2
  | dict _ _ _ _ h1 h2 => exact .dict _ _ _ _ h1 h2

theorem position_lt {p : Nat → Bool} :
    ∀ {l : List Nat} {i : Nat}, position p l = some i → i < l.length := by
  intro l
  induction l with
  | nil => intro i h; cases h
  | cons a t ih =>
    intro i h
    unfold position at h
    by_cases ha : p a = true
    · rw [if_pos ha] at h
      injection h with h
      subst h
      simp
    · rw [if_neg ha] at h
      obtain ⟨j, hj, hij⟩ := Option.map_eq_some'.mp h
      subst hij
      have := ih hj
      simp
      omega

theorem position_congr {p : Nat → Bool} :
    ∀ {l1 l2 : List Nat} {i : Nat}, position p l1 = some i →
    l1.take (i + 1) = l2.take (i + 1) → position p l2 = some i := by
  intro l1
  induction l1 with
  | nil => intro l2 i h; cases h
  | cons a t ih =>
    intro l2 i h htk
    unfold position at h
    by_cases ha : p a = true
    · rw [if_pos ha] at h
      injection h with h
      subst h
      cases l2 with
      | nil => simp at htk
      | cons b t2 =>
        simp at htk
        subst htk
        simp [position, ha]
    · rw [if_neg ha] at h
      obtain ⟨j, hj, hij⟩ := Option.map_eq_some'.mp h
      subst hij
      cases l2 with
      | nil => simp at htk
      | cons b t2 =>
        simp at htk
        obtain ⟨hab, htk2⟩ := htk
        subst hab
        have := ih hj htk2
        simp [position, ha, this]

theorem length_take_append {l : List Nat} {s : Nat} (hs : s ≤ l.length)
    (ext : List Nat) : (l.take s ++ ext).length = s + ext.length := by
  simp [List.length_take, Nat.min_eq_left hs]

theorem getD_take_append {l : List Nat} {s j : Nat} (hs : s ≤ l.length)
    (hj : j < s) (ext : List Nat) :
    (l.take s ++ ext).getD j 0 = l.getD j 0 := by
  have h1 : (l.take s ++ ext).get? j = (l.take s).get? j := by
    apply List.get?_append
    simp [List.length_take]
    omega
  have h2 : (l.take s).get? j = l.get? j := List.get?_take hj
  show ((l.take s ++ ext).get? j).getD 0 = (l.get? j).getD 0
  rw [h1, h2]

theorem slice_take_append {l : List Nat} {s j k : Nat} (hs : s ≤ l.length)
    (hjk : j + k ≤ s) (ext : List Nat) :
    ((l.take s ++ ext).drop j).take k = (l.drop j).take k := by
  rw [List.drop_append_of_le_length (by simp [List.length_take]; omega)]
  rw [List.drop_take]
  rw [List.take_append_of_le_length (by simp [List.length_take]; omega)]
  rw [List.take_take]
  congr 1
  omega

theorem take_take_append {l : List Nat} {s k : Nat} (hs : s ≤ l.length)
    (hk : k ≤ s) (ext : List Nat) :
    (l.take s ++ ext).take k = l.take k := by
  have := slice_take_append hs (j := 0) (k := k) (by omega) ext
  simpa using this

theorem head?_take_append {l : List Nat} {s : Nat} (hs1 : 1 ≤ s)
    (hs2 : s ≤ l.length) :
    ∀ (ext : List Nat), (l.take s ++ ext).head? = l.head? := by
  intro ext
  cases l with
  | nil => simp at hs2; omega
  | cons a t =>
    obtain ⟨s2, rfl⟩ : ∃ s2, s = s2 + 1 := ⟨s - 1, by omega⟩
    simp

theorem decode_int_ok {bytes : List Nat} {v : BencodeVal}
    (h : decode_int bytes = .ok v) :
    ∃ n s, v = .int 0 n s ∧ 1 ≤ s ∧ s ≤ bytes.length ∧
      ∀ ext, decode_int ((bytes.take s) ++ ext) = .ok v := by
  unfold decode_int at h
  by_cases h1 : bytes.length < 3
  · rw [if_pos h1] at h; cases h
  rw [if_neg h1] at h
  by_cases h2 : bytes.getD 0 0 ≠ 105
  · rw [if_pos h2] at h; cases h
  rw [if_neg h2] at h
  have h2e : bytes.getD 0 0 = 105 := not_not.mp h2
  by_cases h3 : (bytes.drop 1).take 2 = [48, 101]
  · rw [if_pos h3] at h
    injection h with h
    subst h
    refine ⟨0, 3, rfl, by omega, by omega, ?_⟩
    intro ext
    have hs3 : 3 ≤ bytes.length := by omega
    unfold decode_int
    rw [if_neg (by rw [length_take_append hs3]; omega)]
    rw [if_neg (by rw [getD_take_append hs3 (by omega)]; exact h2)]
    rw [if_pos (by rw [slice_take_append hs3 (by omega)]; exact h3)]
  rw [if_neg h3] at h
  by_cases h4 : bytes.getD 1 0 = 48
  · rw [if_pos h4] at h; cases h
  rw [if_neg h4] at h
  by_cases h5 : (bytes.drop 1).take 2 = [45, 48]
  · rw [if_pos h5] at h; cases h
  rw [if_neg h5] at h
  cases hpos : position (fun x => ! isAsciiDigit x) (bytes.drop 2) with
  | none => simp only [hpos] at h; cases h
  | some idx =>
    simp only [hpos] at h
    have hidx : idx < bytes.length - 2 := by
      have := position_lt hpos
      simpa using this
    by_cases h6 : bytes.getD (idx + 2) 0 ≠ 101
    · rw [if_pos h6] at h; cases h
    rw [if_neg h6] at h
    cases hparse : rustParseI64 ((bytes.drop 1).take (idx + 1)) with
    | none => simp only [hparse] at h; cases h
    | some n =>
      simp only [hparse] at h
      injection h with h
      subst h
      refine ⟨n, idx + 3, rfl, by omega, by omega, ?_⟩
      intro ext
      have hsle : idx + 3 ≤ bytes.length := by omega
      unfold decode_int
      rw [if_neg (by rw [length_take_append hsle]; omega)]
      rw [if_neg (by rw [getD_take_append hsle (by omega)]; exact h2)]
      rw [if_neg (by rw [slice_take_append hsle (by omega)]; exact h3)]
      rw [if_neg (by rw [getD_take_append hsle (by omega)]; exact h4)]
      rw [if_neg (by rw [slice_take_append hsle (by omega)]; exact h5)]
      have e6 : position (fun x => ! isAsciiDigit x)
          ((bytes.take (idx + 3) ++ ext).drop 2) = some idx :=
        position_congr hpos
          (slice_take_append hsle (by omega) ext).symm
      simp only [e6]
      rw [if_neg (by rw [getD_take_append hsle (by omega)]; exact h6)]
      rw [slice_take_append hsle (by omega)]
      simp only [hparse]

theorem decode_str_ok {bytes : List Nat} {v : BencodeVal}
    (h : decode_str bytes = .ok v) :
    ∃ bs s, v = .str 0 bs s ∧ 1 ≤ s ∧ s ≤ bytes.length ∧
      ∀ ext, decode_str ((bytes.take s) ++ ext) = .ok v := by
  unfold decode_str at h
  by_cases h1 : bytes.length < 2
  · rw [if_pos h1] at h; cases h
  rw [if_neg h1] at h
  cases hpos : position (fun x => ! isAsciiDigit x) bytes with
  | none => simp only [hpos] at h; cases h
  | some idx =>
    simp only [hpos] at h
    have hidx : idx < bytes.length := position_lt hpos
    by_cases h2 : bytes.getD idx 0 ≠ 58
    · rw [if_pos h2] at h; cases h
    rw [if_neg h2] at h
    cases hparse : rustParseUsize (bytes.take idx) with
    | none => simp only [hparse] at h; cases h
    | some len0 =>
      simp only [hparse] at h
      by_cases h3 : bytes.length ≤ len0 + idx
      · rw [if_pos h3] at h; cases h
      rw [if_neg h3] at h
      injection h with h
      subst h
      have hidx1 : 1 ≤ idx := by
        rcases Nat.eq_zero_or_pos idx with h0 | h0
        · rw [h0] at hparse
          simp [rustParseUsize, rustParseUsizeDigits] at hparse
        · exact h0
      refine ⟨(bytes.drop (idx + 1)).take len0, idx + len0 + 1, rfl,
        by omega, by omega, ?_⟩
      intro ext
      have hsle : idx + len0 + 1 ≤ bytes.length := by omega
      unfold decode_str
      rw [if_neg (by rw [length_take_append hsle]; omega)]
      have e1 : position (fun x => ! isAsciiDigit x)
          (bytes.take (idx + len0 + 1) ++ ext) = some idx := by
        apply position_congr hpos
        have := take_take_append hsle (show idx + 1 ≤ idx + len0 + 1 by omega)
          ext
        exact this.symm
      simp only [e1]
      rw [if_neg (by rw [getD_take_append hsle (by omega)]; exact h2)]
      have e2 : (bytes.take (idx + len0 + 1) ++ ext).take idx =
          bytes.take idx := take_take_append hsle (by omega) ext
      rw [e2]
      simp only [hparse]
      rw [if_neg (by rw [length_take_append hsle]; omega)]
      rw [slice_take_append hsle (by omega)]

theorem decodeF_mono_succ : ∀ f : Nat,
    (∀ rest c r, decodeChildF f rest c = some r →
      decodeChildF (f + 1) rest c = some r) ∧
    (∀ bytes r, decode_listF f bytes = some r →
      decode_listF (f + 1) bytes = some r) ∧
    (∀ bytes r, decode_dictF f bytes = some r →
      decode_dictF (f + 1) bytes = some r) ∧
    (∀ rest index acc r, decode_list_loopF f rest index acc = some r →
      decode_list_loopF (f + 1) rest index acc = some r) ∧
    (∀ rest index acc r, decode_dict_loopF f rest index acc = some r →
      decode_dict_loopF (f + 1) rest index acc = some r) := by
  intro f
  induction f with
  | zero =>
    refine ⟨?_, ?_, ?_, ?_, ?_⟩
    · intro rest c r h; simp [decodeChildF] at h
    · intro bytes r h; simp [decode_listF] at h
    · intro bytes r h; simp [decode_dictF] at h
    · intro rest index acc r h; simp [decode_list_loopF] at h
    · intro rest index acc r h; simp [decode_dict_loopF] at h
  | succ f ih =>
    obtain ⟨ihC, ihL, ihD, ihLL, ihDL⟩ := ih
    have hC : ∀ rest c r, decodeChildF (f + 1) rest c = some r →
        decodeChildF (f + 2) rest c = some r := by
      intro rest c r h
      simp only [decodeChildF] at h ⊢
      by_cases h105 : c = 105
      · rw [if_pos h105] at h ⊢; exact h
      rw [if_neg h105] at h ⊢
      by_cases h108 : c = 108
      · rw [if_pos h108] at h ⊢; exact ihL _ _ h
      rw [if_neg h108] at h ⊢
      by_cases h100 : c = 100
      · rw [if_pos h100] at h ⊢; exact ihD _ _ h
      rw [if_neg h100] at h ⊢
      by_cases hdig : isAsciiDigit c = true
      · rw [if_pos hdig] at h ⊢; exact h
      · rw [if_neg hdig] at h ⊢; exact h
    have hLL : ∀ rest index acc r,
        decode_list_loopF (f + 1) rest index acc = some r →
        decode_list_loopF (f + 2) rest index acc = some r := by
      intro rest index acc r h
      cases rest with
      | nil =>
        simp only [decode_list_loopF] at h ⊢
        exact h
      | cons c t =>
        simp only [decode_list_loopF] at h ⊢
        by_cases hc : c = 101
        · rw [if_pos hc] at h ⊢; exact h
        rw [if_neg hc] at h ⊢
        cases hch : decodeChildF f (c :: t) c with
        | none => simp only [hch] at h; cases h
        | some rr =>
          simp only [hch] at h
          simp only [ihC _ _ _ hch]
          cases rr with
          | err e => exact h
          | panic => exact h
          | ok val =>
            dsimp only at h ⊢
            by_cases hz : val.size = 0
            · rw [if_pos hz] at h ⊢; exact h
            · rw [if_neg hz] at h ⊢; exact ihLL _ _ _ _ h
    have hDL : ∀ rest index acc r,
        decode_dict_loopF (f + 1) rest index acc = some r →
        decode_dict_loopF (f + 2) rest index acc = some r := by
      intro rest index acc r h
      cases rest with
      | nil =>
        simp only [decode_dict_loopF] at h ⊢
        exact h
      | cons c t =>
        simp only [decode_dict_loopF] at h ⊢
        by_cases hc : c = 101
        · rw [if_pos hc] at h ⊢; exact h
        rw [if_neg hc] at h ⊢
        by_cases hd : (! isAsciiDigit c) = true
        · rw [if_pos hd] at h ⊢; exact h
        rw [if_neg hd] at h ⊢
        cases hk : decode_str (c :: t) with
        | err e => simp only [hk] at h ⊢; exact h
        | panic => simp only [hk] at h ⊢; exact h
        | ok kval =>
          simp only [hk] at h ⊢
          cases kval with
          | int i n s => exact h
          | list i l s => exact h
          | dict i d2 s => exact h
          | str i key ksize =>
            dsimp only at h ⊢
            by_cases hks : ksize = 0
            · rw [if_pos hks] at h ⊢; exact h
            rw [if_neg hks] at h ⊢
            cases hrd : (c :: t).drop ksize with
            | nil => simp only [hrd] at h ⊢; exact h
            | cons c2 t2 =>
              simp only [hrd] at h ⊢
              cases hch : decodeChildF f (c2 :: t2) c2 with
              | none => simp only [hch] at h; cases h
              | some rr =>
                simp only [hch] at h
                simp only [ihC _ _ _ hch]
                cases rr with
                | err e => exact h
                | panic => exact h
                | ok val =>
                  dsimp only at h ⊢
                  by_cases hz : val.size = 0
                  · rw [if_pos hz] at h ⊢; exact h
                  · rw [if_neg hz] at h ⊢; exact ihDL _ _ _ _ h
    have hL : ∀ bytes r, decode_listF (f + 1) bytes = some r →
        decode_listF (f + 2) bytes = some r := by
      intro bytes r h
      simp only [decode_listF] at h ⊢
      by_cases c1 : bytes.length < 2
      · rw [if_pos c1] at h ⊢; exact h
      rw [if_neg c1] at h ⊢
      by_cases c2 : bytes.getD 0 0 ≠ 108
      · rw [if_pos c2] at h ⊢; exact h
      rw [if_neg c2] at h ⊢
      by_cases c3 : bytes.getD 1 0 = 101
      · rw [if_pos c3] at h ⊢; exact h
      rw [if_neg c3] at h ⊢
      exact ihLL _ _ _ _ h
    have hD : ∀ bytes r, decode_dictF (f + 1) bytes = some r →
        decode_dictF (f + 2) bytes = some r := by
      intro bytes r h
      simp only [decode_dictF] at h ⊢
      by_cases c1 : bytes.length < 2
      · rw [if_pos c1] at h ⊢; exact h
      rw [if_neg c1] at h ⊢
      by_cases c2 : bytes.getD 0 0 ≠ 100
      · rw [if_pos c2] at h ⊢; exact h
      rw [if_neg c2] at h ⊢
      by_cases c3 : bytes.getD 1 0 = 101
      · rw [if_pos c3] at h ⊢; exact h
      rw [if_neg c3] at h ⊢
      exact ihDL _ _ _ _ h
    exact ⟨hC, hL, hD, hLL, hDL⟩

theorem decode_listF_mono {f f' : Nat} (hle : f ≤ f') :
    ∀ bytes r, decode_listF f bytes = some r →
      decode_listF f' bytes = some r := by
  induction hle with
  | refl => exact fun _ _ h => h
  | step _ ih =>
    intro bytes r h
    exact (decodeF_mono_succ _).2.1 _ _ (ih _ _ h)

theorem decode_dictF_mono {f f' : Nat} (hle : f ≤ f') :
    ∀ bytes r, decode_dictF f bytes = some r →
      decode_dictF f' bytes = some r := by
  induction hle with
  | refl => exact fun _ _ h => h
  | step _ ih =>
    intro bytes r h
    exact (decodeF_mono_succ _).2.2.1 _ _ (ih _ _ h)

theorem decodeF_total : ∀ f : Nat,
    (∀ rest c, 1 ≤ rest.length → 3 * rest.length ≤ f →
      decodeChildF f rest c ≠ none) ∧
    (∀ bytes, 1 ≤ f → 3 * bytes.length ≤ f + 1 →
      decode_listF f bytes ≠ none) ∧
    (∀ bytes, 1 ≤ f → 3 * bytes.length ≤ f + 1 →
      decode_dictF f bytes ≠ none) ∧
    (∀ rest index acc, 3 * rest.length + 1 ≤ f →
      decode_list_loopF f rest index acc ≠ none) ∧
    (∀ rest index acc, 3 * rest.length + 1 ≤ f →
      decode_dict_loopF f rest index acc ≠ none) := by
  intro f
  induction f with
  | zero =>
    refine ⟨?_, ?_, ?_, ?_, ?_⟩
    · intro rest c h1 h2; omega
    · intro bytes h1 _; omega
    · intro bytes h1 _; omega
    · intro rest index acc h1; omega
    · intro rest index acc h1; omega
  | succ f ih =>
    obtain ⟨ihC, ihL, ihD, ihLL, ihDL⟩ := ih
    have hC : ∀ rest c, 1 ≤ rest.length → 3 * rest.length ≤ f + 1 →
        decodeChildF (f + 1) rest c ≠ none := by
      intro rest c h1 h2
      simp only [decodeChildF]
      by_cases h105 : c = 105
      · rw [if_pos h105]; simp
      rw [if_neg h105]
      by_cases h108 : c = 108
      · rw [if_pos h108]; exact ihL _ (by omega) (by omega)
      rw [if_neg h108]
      by_cases h100 : c = 100
      · rw [if_pos h100]; exact ihD _ (by omega) (by omega)
      rw [if_neg h100]
      by_cases hdig : isAsciiDigit c = true
      · rw [if_pos hdig]; simp
      · rw [if_neg hdig]; simp
    have hLL : ∀ rest index acc, 3 * rest.length + 1 ≤ f + 1 →
        decode_list_loopF (f + 1) rest index acc ≠ none := by
      intro rest index acc h1
      cases rest with
      | nil => simp [decode_list_loopF]
      | cons c t =>
        simp only [decode_list_loopF]
        by_cases hc : c = 101
        · rw [if_pos hc]; simp
        rw [if_neg hc]
        cases hch : decodeChildF f (c :: t) c with
        | none =>
          exact absurd hch (ihC _ _ (by simp) (by simp at h1 ⊢; omega))
        | some rr =>
          cases rr with
          | err e => simp [hch]
          | panic => simp [hch]
          | ok val =>
            simp only [hch]
            by_cases hz : val.size = 0
            · rw [if_pos hz]; simp
            · rw [if_neg hz]
              apply ihLL
              have : val.size ≥ 1 := by omega
              simp at h1 ⊢
              omega
    have hDL : ∀ rest index acc, 3 * rest.length + 1 ≤ f + 1 →
        decode_dict_loopF (f + 1) rest index acc ≠ none := by
      intro rest index acc h1
      cases rest with
      | nil => simp [decode_dict_loopF]
      | cons c t =>
        simp only [decode_dict_loopF]
        by_cases hc : c = 101
        · rw [if_pos hc]; simp
        rw [if_neg hc]
        by_cases hd : (! isAsciiDigit c) = true
        · rw [if_pos hd]; simp
        rw [if_neg hd]
        cases hk : decode_str (c :: t) with
        | err e => simp
        | panic => simp
        | ok kval =>
          cases kval with
          | int i n s => simp
          | list i l s => simp
          | dict i d2 s => simp
          | str i key ksize =>
            simp only [hk]
            by_cases hks : ksize = 0
            · rw [if_pos hks]; simp
            rw [if_neg hks]
            cases hrd : (c :: t).drop ksize with
            | nil => simp
            | cons c2 t2 =>
              have hlen2 : (c2 :: t2).length = (c :: t).length - ksize := by
                rw [← hrd]
                simp
              cases hch : decodeChildF f (c2 :: t2) c2 with
              | none =>
                refine absurd hch (ihC _ _ (by simp) ?_)
                rw [hlen2]
                simp at h1 ⊢
                omega
              | some rr =>
                cases rr with
                | err e => simp [hch]
                | panic => simp [hch]
                | ok val =>
                  simp only [hch]
                  by_cases hz : val.size = 0
                  · rw [if_pos hz]; simp
                  · rw [if_neg hz]
                    apply ihDL
                    have h2 : ((c2 :: t2).drop val.size).length =
                        (c2 :: t2).length - val.size := by simp
                    rw [h2, hlen2]
                    simp at h1 ⊢
                    omega
    have hL : ∀ bytes, 1 ≤ f + 1 → 3 * bytes.length ≤ f + 2 →
        decode_listF (f + 1) bytes ≠ none := by
      intro bytes _ h2
      simp only [decode_listF]
      by_cases c1 : bytes.length < 2
      · rw [if_pos c1]; simp
      rw [if_neg c1]
      by_cases c2 : bytes.getD 0 0 ≠ 108
      · rw [if_pos c2]; simp
      rw [if_neg c2]
      by_cases c3 : bytes.getD 1 0 = 101
      · rw [if_pos c3]; simp
      rw [if_neg c3]
      apply ihLL
      simp
      omega
    have hD : ∀ bytes, 1 ≤ f + 1 → 3 * bytes.length ≤ f + 2 →
        decode_dictF (f + 1) bytes ≠ none := by
      intro bytes _ h2
      simp only [decode_dictF]
      by_cases c1 : bytes.length < 2
      · rw [if_pos c1]; simp
      rw [if_neg c1]
      by_cases c2 : bytes.getD 0 0 ≠ 100
      · rw [if_pos c2]; simp
      rw [if_neg c2]
      by_cases c3 : bytes.getD 1 0 = 101
      · rw [if_pos c3]; simp
      rw [if_neg c3]
      apply ihDL
      simp
      omega
    exact ⟨hC, hL, hD, hLL, hDL⟩

theorem head?_take {l : List Nat} {s : Nat} (hs : 1 ≤ s) :
    (l.take s).head? = l.head? := by
  cases l with
  | nil => simp
  | cons a t =>
    obtain ⟨s2, rfl⟩ : ∃ s2, s = s2 + 1 := ⟨s - 1, by omega⟩
    simp

theorem decode_head_int {bytes : List Nat} (h : bytes.head? = some 105) :
    decode bytes = decode_int bytes := by
  rw [decode]
  simp only [h]
  rfl

theorem decode_head_list {bytes : List Nat} (h : bytes.head? = some 108) :
    decode bytes =
      (decode_listF (3 * bytes.length + 3) bytes).getD .panic := by
  rw [decode]
  simp only [h]
  rfl

theorem decode_head_dict {bytes : List Nat} (h : bytes.head? = some 100) :
    decode bytes =
      (decode_dictF (3 * bytes.length + 3) bytes).getD .panic := by
  rw [decode]
  simp only [h]
  rfl

theorem decode_head_digit {bytes : List Nat} {c : Nat}
    (h : bytes.head? = some c) (hd : isAsciiDigit c = true) :
    decode bytes = decode_str bytes := by
  have hc : 48 ≤ c ∧ c ≤ 57 := by
    simpa [isAsciiDigit, Bool.and_eq_true, decide_eq_true_eq] using hd
  rw [decode]
  simp only [h]
  rw [if_neg (by omega), if_neg (by omega), if_neg (by omega), if_pos hd]

theorem listF_decode {f : Nat} {bytes : List Nat} {v : BencodeVal}
    (hh : bytes.head? = some 108) (h : decode_listF f bytes = some (.ok v)) :
    decode bytes = .ok v := by
  have htot := (decodeF_total (3 * bytes.length + 3)).2.1 bytes
    (by omega) (by omega)
  cases hcan : decode_listF (3 * bytes.length + 3) bytes with
  | none => exact absurd hcan htot
  | some r =>
    have h1 := decode_listF_mono (le_max_left f (3 * bytes.length + 3)) _ _ h
    have h2 := decode_listF_mono (le_max_right f (3 * bytes.length + 3))
      _ _ hcan
    rw [h1] at h2
    injection h2 with h2
    rw [decode_head_list hh, hcan, ← h2]
    rfl

theorem dictF_decode {f : Nat} {bytes : List Nat} {v : BencodeVal}
    (hh : bytes.head? = some 100) (h : decode_dictF f bytes = some (.ok v)) :
    decode bytes = .ok v := by
  have htot := (decodeF_total (3 * bytes.length + 3)).2.2.1 bytes
    (by omega) (by omega)
  cases hcan : decode_dictF (3 * bytes.length + 3) bytes with
  | none => exact absurd hcan htot
  | some r =>
    have h1 := decode_dictF_mono (le_max_left f (3 * bytes.length + 3)) _ _ h
    have h2 := decode_dictF_mono (le_max_right f (3 * bytes.length + 3))
      _ _ hcan
    rw [h1] at h2
    injection h2 with h2
    rw [decode_head_dict hh, hcan, ← h2]
    rfl

theorem mem_dictInsert {a : List (List Nat × BencodeVal)} {k : List Nat}
    {v : BencodeVal} :
    ∀ {kv}, kv ∈ dictInsert a k v → kv = (k, v) ∨ kv ∈ a := by
  induction a with
  | nil =>
    intro kv h
    simp [dictInsert] at h
    exact Or.inl h
  | cons p rest ih =>
    intro kv h
    unfold dictInsert at h
    by_cases hk : p.1 = k
    · rw [if_pos hk] at h
      rcases List.mem_cons.mp h with h1 | h1
      · exact Or.inl h1
      · exact Or.inr (List.mem_cons.mpr (Or.inr h1))
    · rw [if_neg hk] at h
      rcases List.mem_cons.mp h with h1 | h1
      · exact Or.inr (List.mem_cons.mpr (Or.inl h1))
      · rcases ih h1 with h2 | h2
        · exact Or.inl h2
        · exact Or.inr (List.mem_cons.mpr (Or.inr h2))

theorem drop_take_append {l : List Nat} {s : Nat} (hs : s ≤ l.length)
    (ext : List Nat) : (l.take s ++ ext).drop s = ext := by
  have h := List.drop_left (l.take s) ext
  rw [List.length_take, Nat.min_eq_left hs] at h
  exact h

/-- The shape invariant of every fueled-decoder success: the produced value
has index 0 (containers) or frame-relative child indices, positive size
bounded by the buffer, re-decodes from its own prefix slice under any
extension, and every recorded child re-decodes from the frame suffix at its
local offset. -/
theorem decodeF_ok_spec : ∀ f : Nat,
    (∀ rest c val, rest.head? = some c →
      decodeChildF f rest c = some (.ok val) →
      val.index = 0 ∧ 1 ≤ val.size ∧ val.size ≤ rest.length ∧
      decode rest = .ok val ∧
      ∀ ext, decodeChildF f (rest.take val.size ++ ext) c = some (.ok val)) ∧
    (∀ bytes v, decode_listF f bytes = some (.ok v) →
      ∃ l s, v = .list 0 l s ∧ 2 ≤ s ∧ s ≤ bytes.length ∧
        (∀ ext, decode_listF f (bytes.take s ++ ext) = some (.ok v)) ∧
        (∀ c ∈ l, 1 ≤ c.index ∧ ∃ c0, c = setIndex c0 c.index ∧
          decode (bytes.drop c.index) = .ok c0)) ∧
    (∀ bytes v, decode_dictF f bytes = some (.ok v) →
      ∃ d s, v = .dict 0 d s ∧ 2 ≤ s ∧ s ≤ bytes.length ∧
        (∀ ext, decode_dictF f (bytes.take s ++ ext) = some (.ok v)) ∧
        (∀ kv ∈ d, 1 ≤ kv.2.index ∧ ∃ c0, kv.2 = setIndex c0 kv.2.index ∧
          decode (bytes.drop kv.2.index) = .ok c0)) ∧
    (∀ rest index acc v, decode_list_loopF f rest index acc = some (.ok v) →
      ∃ l s, v = .list 0 l s ∧ index < s ∧ s - index ≤ rest.length ∧
        (∀ ext, decode_list_loopF f (rest.take (s - index) ++ ext) index acc
          = some (.ok v)) ∧
        (∀ c ∈ l, c ∈ acc ∨ (index ≤ c.index ∧ ∃ c0,
          c = setIndex c0 c.index ∧
          decode (rest.drop (c.index - index)) = .ok c0))) ∧
    (∀ rest index acc v, decode_dict_loopF f rest index acc = some (.ok v) →
      ∃ d s, v = .dict 0 d s ∧ index < s ∧ s - index ≤ rest.length ∧
        (∀ ext, decode_dict_loopF f (rest.take (s - index) ++ ext) index acc
          = some (.ok v)) ∧
        (∀ kv ∈ d, kv ∈ acc ∨ (index ≤ kv.2.index ∧ ∃ c0,
          kv.2 = setIndex c0 kv.2.index ∧
          decode (rest.drop (kv.2.index - index)) = .ok c0))) := by
  intro f
  induction f with
  | zero =>
    refine ⟨?_, ?_, ?_, ?_, ?_⟩
    · intro rest c val _ h; simp [decodeChildF] at h
    · intro bytes v h; simp [decode_listF] at h
    · intro bytes v h; simp [decode_dictF] at h
    · intro rest index acc v h; simp [decode_list_loopF] at h
    · intro rest index acc v h; simp [decode_dict_loopF] at h
  | succ f ih =>
    obtain ⟨ihC, ihL, ihD, ihLL, ihDL⟩ := ih
    have hC : ∀ rest c val, rest.head? = some c →
        decodeChildF (f + 1) rest c = some (.ok val) →
        val.index = 0 ∧ 1 ≤ val.size ∧ val.size ≤ rest.length ∧
        decode rest = .ok val ∧
        ∀ ext, decodeChildF (f + 1) (rest.take val.size ++ ext) c
          = some (.ok val) := by
      intro rest c val hh h
      simp only [decodeChildF] at h
      by_cases h105 : c = 105
      · rw [if_pos h105] at h
        injection h with h
        obtain ⟨n0, s, hv, hs1, hsle, hext⟩ := decode_int_ok h
        subst hv
        subst h105
        refine ⟨rfl, hs1, hsle, ?_, ?_⟩
        · rw [decode_head_int hh]; exact h
        · intro ext
          simp only [decodeChildF]
          exact congrArg some (hext ext)
      rw [if_neg h105] at h
      by_cases h108 : c = 108
      · rw [if_pos h108] at h
        obtain ⟨l, s, hv, hs2, hsle, hext, _⟩ := ihL _ _ h
        subst hv
        subst h108
        refine ⟨rfl, by simp only [BencodeVal.size]; omega, hsle,
          listF_decode hh h, ?_⟩
        intro ext
        simp only [decodeChildF]
        exact hext ext
      rw [if_neg h108] at h
      by_cases h100 : c = 100
      · rw [if_pos h100] at h
        obtain ⟨d, s, hv, hs2, hsle, hext, _⟩ := ihD _ _ h
        subst hv
        subst h100
        refine ⟨rfl, by simp only [BencodeVal.size]; omega, hsle,
          dictF_decode hh h, ?_⟩
        intro ext
        simp only [decodeChildF]
        exact hext ext
      rw [if_neg h100] at h
      by_cases hdig : isAsciiDigit c = true
      · rw [if_pos hdig] at h
        injection h with h
        obtain ⟨bs, s, hv, hs1, hsle, hext⟩ := decode_str_ok h
        subst hv
        refine ⟨rfl, hs1, hsle, ?_, ?_⟩
        · rw [decode_head_digit hh hdig]; exact h
        · intro ext
          simp only [decodeChildF]
          rw [if_neg h105, if_neg h108, if_neg h100, if_pos hdig]
          exact congrArg some (hext ext)
      · rw [if_neg hdig] at h
        simp at h
    have hLL : ∀ rest index acc v,
        decode_list_loopF (f + 1) rest index acc = some (.ok v) →
        ∃ l s, v = .list 0 l s ∧ index < s ∧ s - index ≤ rest.length ∧
          (∀ ext, decode_list_loopF (f + 1) (rest.take (s - index) ++ ext)
            index acc = some (.ok v)) ∧
          (∀ c ∈ l, c ∈ acc ∨ (index ≤ c.index ∧ ∃ c0,
            c = setIndex c0 c.index ∧
            decode (rest.drop (c.index - index)) = .ok c0)) := by
      intro rest index acc v h
      cases rest with
      | nil => simp only [decode_list_loopF] at h; simp at h
      | cons c t =>
        simp only [decode_list_loopF] at h
        by_cases hc : c = 101
        · rw [if_pos hc] at h
          injection h with h
          injection h with h
          refine ⟨acc, index + 1, h.symm, by omega,
            by simp only [List.length_cons]; omega, ?_, ?_⟩
          · intro ext
            have h1 : index + 1 - index = 1 := by omega
            rw [h1]
            simp only [List.take_succ_cons, List.take_zero,
              List.cons_append, List.nil_append]
            simp only [decode_list_loopF]
            rw [if_pos hc, h]
          · intro c' hc'
            exact Or.inl hc'
        rw [if_neg hc] at h
        cases hch : decodeChildF f (c :: t) c with
        | none => simp only [hch] at h; cases h
        | some rr =>
          simp only [hch] at h
          cases rr with
          | err e => simp at h
          | panic => simp at h
          | ok val =>
            dsimp only at h
            by_cases hz : val.size = 0
            · rw [if_pos hz] at h; simp at h
            rw [if_neg hz] at h
            obtain ⟨hvi0, hvs1, hvsle, hvdec, hvext⟩ :=
              ihC (c :: t) c val rfl hch
            obtain ⟨l, s, hv, hlt, hle, hext, hch2⟩ := ihLL _ _ _ _ h
            have hdl : ((c :: t).drop val.size).length
                = (c :: t).length - val.size := List.length_drop _ _
            refine ⟨l, s, hv, by omega, by omega, ?_, ?_⟩
            · intro ext
              have hbuf : (c :: t).take (s - index) ++ ext
                  = c :: (t.take (s - index - 1) ++ ext) := by
                obtain ⟨m, hm⟩ : ∃ m, s - index = m + 1 :=
                  ⟨s - index - 1, by omega⟩
                rw [hm]; simp
              rw [hbuf]
              simp only [decode_list_loopF]
              rw [if_neg hc]
              have hsplit : c :: (t.take (s - index - 1) ++ ext)
                  = (c :: t).take val.size ++
                    (((c :: t).drop val.size).take (s - index - val.size)
                      ++ ext) := by
                rw [← List.append_assoc, ← List.take_add,
                  show val.size + (s - index - val.size) = s - index from
                    by omega]
                obtain ⟨m, hm⟩ : ∃ m, s - index = m + 1 :=
                  ⟨s - index - 1, by omega⟩
                rw [hm]; simp
              rw [hsplit]
              simp only [hvext (((c :: t).drop val.size).take
                (s - index - val.size) ++ ext)]
              rw [if_neg hz]
              have hdropv : ((c :: t).take val.size ++
                  (((c :: t).drop val.size).take (s - index - val.size)
                    ++ ext)).drop val.size
                  = ((c :: t).drop val.size).take (s - index - val.size)
                    ++ ext :=
                drop_take_append (by omega) _
              rw [hdropv,
                show s - index - val.size = s - (index + val.size) from
                  by omega]
              exact hext ext
            · intro c' hc'
              rcases hch2 c' hc' with hacc | ⟨hile, c0, hc0, hdec⟩
              · rcases List.mem_append.mp hacc with h1 | h1
                · exact Or.inl h1
                · have he : c' = setIndex val index :=
                    List.mem_singleton.mp h1
                  subst he
                  refine Or.inr ⟨by rw [setIndex_index], val, ?_, ?_⟩
                  · rw [setIndex_index]
                  · rw [setIndex_index,
                      show index - index = 0 from by omega,
                      List.drop_zero]
                    exact hvdec
              · rw [List.drop_drop,
                  show val.size + (c'.index - (index + val.size))
                    = c'.index - index from by omega] at hdec
                exact Or.inr ⟨by omega, c0, hc0, hdec⟩
    have hDL : ∀ rest index acc v,
        decode_dict_loopF (f + 1) rest index acc = some (.ok v) →
        ∃ d s, v = .dict 0 d s ∧ index < s ∧ s - index ≤ rest.length ∧
          (∀ ext, decode_dict_loopF (f + 1) (rest.take (s - index) ++ ext)
            index acc = some (.ok v)) ∧
          (∀ kv ∈ d, kv ∈ acc ∨ (index ≤ kv.2.index ∧ ∃ c0,
            kv.2 = setIndex c0 kv.2.index ∧
            decode (rest.drop (kv.2.index - index)) = .ok c0)) := by
      intro rest index acc v h
      cases rest with
      | nil => simp only [decode_dict_loopF] at h; simp at h
      | cons c t =>
        simp only [decode_dict_loopF] at h
        by_cases hc : c = 101
        · rw [if_pos hc] at h
          injection h with h
          injection h with h
          refine ⟨acc, index + 1, h.symm, by omega,
            by simp only [List.length_cons]; omega, ?_, ?_⟩
          · intro ext
            have h1 : index + 1 - index = 1 := by omega
            rw [h1]
            simp only [List.take_succ_cons, List.take_zero,
              List.cons_append, List.nil_append]
            simp only [decode_dict_loopF]
            rw [if_pos hc, h]
          · intro kv hkv
            exact Or.inl hkv
        rw [if_neg hc] at h
        by_cases hd : (! isAsciiDigit c) = true
        · rw [if_pos hd] at h; simp at h
        rw [if_neg hd] at h
        cases hk : decode_str (c :: t) with
        | err e => simp only [hk] at h; simp at h
        | panic => simp only [hk] at h; simp at h
        | ok kval =>
          simp only [hk] at h
          cases kval with
          | int i n s => simp at h
          | list i l s => simp at h
          | dict i d2 s => simp at h
          | str i key ksize =>
            dsimp only at h
            by_cases hks : ksize = 0
            · rw [if_pos hks] at h; simp at h
            rw [if_neg hks] at h
            obtain ⟨bs, s', heq, hks1, hkle, hkext⟩ := decode_str_ok hk
            injection heq with hi hkey hsz
            subst hi; subst hkey; subst hsz
            cases hrd : (c :: t).drop ksize with
            | nil => simp only [hrd] at h; simp at h
            | cons c2 t2 =>
              simp only [hrd] at h
              cases hch : decodeChildF f (c2 :: t2) c2 with
              | none => simp only [hch] at h; cases h
              | some rr =>
                simp only [hch] at h
                cases rr with
                | err e => simp at h
                | panic => simp at h
                | ok val =>
                  dsimp only at h
                  by_cases hz : val.size = 0
                  · rw [if_pos hz] at h; simp at h
                  rw [if_neg hz] at h
                  obtain ⟨hvi0, hvs1, hvsle, hvdec, hvext⟩ :=
                    ihC (c2 :: t2) c2 val rfl hch
                  obtain ⟨d, s, hv, hlt, hle, hext, hch2⟩ := ihDL _ _ _ _ h
                  have hlen2 : (c2 :: t2).length
                      = (c :: t).length - ksize := by
                    rw [← hrd]; exact List.length_drop _ _
                  have hdl : ((c2 :: t2).drop val.size).length
                      = (c2 :: t2).length - val.size := List.length_drop _ _
                  refine ⟨d, s, hv, by omega, by omega, ?_, ?_⟩
                  · intro ext
                    have hbuf : (c :: t).take (s - index) ++ ext
                        = c :: (t.take (s - index - 1) ++ ext) := by
                      obtain ⟨m, hm⟩ : ∃ m, s - index = m + 1 :=
                        ⟨s - index - 1, by omega⟩
                      rw [hm]; simp
                    rw [hbuf]
                    simp only [decode_dict_loopF]
                    rw [if_neg hc, if_neg hd]
                    have hsplit : c :: (t.take (s - index - 1) ++ ext)
                        = (c :: t).take ksize ++
                          (((c :: t).drop ksize).take (s - index - ksize)
                            ++ ext) := by
                      rw [← List.append_assoc, ← List.take_add,
                        show ksize + (s - index - ksize) = s - index from
                          by omega]
                      obtain ⟨m, hm⟩ : ∃ m, s - index = m + 1 :=
                        ⟨s - index - 1, by omega⟩
                      rw [hm]; simp
                    rw [hsplit]
                    simp only [hkext (((c :: t).drop ksize).take
                      (s - index - ksize) ++ ext)]
                    rw [if_neg hks]
                    have hdropk : ((c :: t).take ksize ++
                        (((c :: t).drop ksize).take (s - index - ksize)
                          ++ ext)).drop ksize
                        = c2 :: (t2.take (s - index - ksize - 1) ++ ext) := by
                      have h1 : ((c :: t).take ksize ++
                          (((c :: t).drop ksize).take (s - index - ksize)
                            ++ ext)).drop ksize
                          = ((c :: t).drop ksize).take (s - index - ksize)
                            ++ ext :=
                        drop_take_append (by omega) _
                      rw [h1, hrd]
                      obtain ⟨m, hm⟩ : ∃ m, s - index - ksize = m + 1 :=
                        ⟨s - index - ksize - 1, by omega⟩
                      rw [hm]; simp
                    simp only [hdropk]
                    have hsplit2 : c2 :: (t2.take (s - index - ksize - 1)
                          ++ ext)
                        = (c2 :: t2).take val.size ++
                          (((c2 :: t2).drop val.size).take
                            (s - index - ksize - val.size) ++ ext) := by
                      rw [← List.append_assoc, ← List.take_add,
                        show val.size + (s - index - ksize - val.size)
                          = s - index - ksize from by omega]
                      obtain ⟨m, hm⟩ : ∃ m, s - index - ksize = m + 1 :=
                        ⟨s - index - ksize - 1, by omega⟩
                      rw [hm]; simp
                    rw [hsplit2]
                    simp only [hvext (((c2 :: t2).drop val.size).take
                      (s - index - ksize - val.size) ++ ext)]
                    rw [if_neg hz]
                    have hdropv : ((c2 :: t2).take val.size ++
                        (((c2 :: t2).drop val.size).take
                          (s - index - ksize - val.size) ++ ext)).drop
                          val.size
                        = ((c2 :: t2).drop val.size).take
                            (s - index - ksize - val.size) ++ ext :=
                      drop_take_append (by omega) _
                    rw [hdropv,
                      show s - index - ksize - val.size
                        = s - (index + ksize + val.size) from by omega]
                    exact hext ext
                  · intro kv hkv
                    rcases hch2 kv hkv with hacc | ⟨hile, c0, hc0, hdec⟩
                    · rcases mem_dictInsert hacc with h1 | h1
                      · subst h1
                        refine Or.inr ⟨by rw [setIndex_index]; omega,
                          val, ?_, ?_⟩
                        · show setIndex val (index + ksize)
                            = setIndex val ((setIndex val
                              (index + ksize)).index)
                          rw [setIndex_index]
                        · show decode ((c :: t).drop
                            ((setIndex val (index + ksize)).index - index))
                            = .ok val
                          rw [setIndex_index,
                            show index + ksize - index = ksize from by omega,
                            hrd]
                          exact hvdec
                      · exact Or.inl h1
                    · rw [List.drop_drop, ← hrd, List.drop_drop,
                        show ksize + (val.size +
                            (kv.2.index - (index + ksize + val.size)))
                            = kv.2.index - index from
                          by omega] at hdec
                      exact Or.inr ⟨by omega, c0, hc0, hdec⟩
    have hL : ∀ bytes v, decode_listF (f + 1) bytes = some (.ok v) →
        ∃ l s, v = .list 0 l s ∧ 2 ≤ s ∧ s ≤ bytes.length ∧
          (∀ ext, decode_listF (f + 1) (bytes.take s ++ ext)
            = some (.ok v)) ∧
          (∀ c ∈ l, 1 ≤ c.index ∧ ∃ c0, c = setIndex c0 c.index ∧
            decode (bytes.drop c.index) = .ok c0) := by
      intro bytes v h
      simp only [decode_listF] at h
      by_cases c1 : bytes.length < 2
      · rw [if_pos c1] at h; simp at h
      rw [if_neg c1] at h
      by_cases c2 : bytes.getD 0 0 ≠ 108
      · rw [if_pos c2] at h; simp at h
      rw [if_neg c2] at h
      by_cases c3 : bytes.getD 1 0 = 101
      · rw [if_pos c3] at h
        injection h with h
        injection h with h
        refine ⟨[], 2, h.symm, by omega, by omega, ?_, by simp⟩
        intro ext
        simp only [decode_listF]
        have hg1 : ¬((bytes.take 2 ++ ext).length < 2) := by
          rw [length_take_append (by omega) ext]; omega
        have hg2 : ¬((bytes.take 2 ++ ext).getD 0 0 ≠ 108) := by
          rw [getD_take_append (by omega) (by omega) ext]; exact c2
        have hg3 : (bytes.take 2 ++ ext).getD 1 0 = 101 := by
          rw [getD_take_append (by omega) (by omega) ext]; exact c3
        rw [if_neg hg1, if_neg hg2, if_pos hg3, h]
      rw [if_neg c3] at h
      obtain ⟨l, s, hv, h1s, hsle, hext, hch⟩ := ihLL _ _ _ _ h
      have hdl : (bytes.drop 1).length = bytes.length - 1 :=
        List.length_drop _ _
      refine ⟨l, s, hv, by omega, by omega, ?_, ?_⟩
      · intro ext
        simp only [decode_listF]
        have hg1 : ¬((bytes.take s ++ ext).length < 2) := by
          rw [length_take_append (by omega) ext]; omega
        have hg2 : ¬((bytes.take s ++ ext).getD 0 0 ≠ 108) := by
          rw [getD_take_append (by omega) (by omega) ext]; exact c2
        have hg3 : ¬((bytes.take s ++ ext).getD 1 0 = 101) := by
          rw [getD_take_append (by omega) (by omega) ext]; exact c3
        rw [if_neg hg1, if_neg hg2, if_neg hg3]
        have hdrop1 : (bytes.take s ++ ext).drop 1
            = (bytes.drop 1).take (s - 1) ++ ext := by
          rw [List.drop_append_of_le_length
            (by rw [List.length_take]; omega), List.drop_take]
        rw [hdrop1]
        exact hext ext
      · intro c' hc'
        rcases hch c' hc' with h0 | ⟨h1le, c0, hc0, hdec⟩
        · simp at h0
        · rw [List.drop_drop,
            show 1 + (c'.index - 1) = c'.index from by omega] at hdec
          exact ⟨by omega, c0, hc0, hdec⟩
    have hD : ∀ bytes v, decode_dictF (f + 1) bytes = some (.ok v) →
        ∃ d s, v = .dict 0 d s ∧ 2 ≤ s ∧ s ≤ bytes.length ∧
          (∀ ext, decode_dictF (f + 1) (bytes.take s ++ ext)
            = some (.ok v)) ∧
          (∀ kv ∈ d, 1 ≤ kv.2.index ∧ ∃ c0, kv.2 = setIndex c0 kv.2.index ∧
            decode (bytes.drop kv.2.index) = .ok c0) := by
      intro bytes v h
      simp only [decode_dictF] at h
      by_cases c1 : bytes.length < 2
      · rw [if_pos c1] at h; simp at h
      rw [if_neg c1] at h
      by_cases c2 : bytes.getD 0 0 ≠ 100
      · rw [if_pos c2] at h; simp at h
      rw [if_neg c2] at h
      by_cases c3 : bytes.getD 1 0 = 101
      · rw [if_pos c3] at h
        injection h with h
        injection h with h
        refine ⟨[], 2, h.symm, by omega, by omega, ?_, by simp⟩
        intro ext
        simp only [decode_dictF]
        have hg1 : ¬((bytes.take 2 ++ ext).length < 2) := by
          rw [length_take_append (by omega) ext]; omega
        have hg2 : ¬((bytes.take 2 ++ ext).getD 0 0 ≠ 100) := by
          rw [getD_take_append (by omega) (by omega) ext]; exact c2
        have hg3 : (bytes.take 2 ++ ext).getD 1 0 = 101 := by
          rw [getD_take_append (by omega) (by omega) ext]; exact c3
        rw [if_neg hg1, if_neg hg2, if_pos hg3, h]
      rw [if_neg c3] at h
      obtain ⟨d, s, hv, h1s, hsle, hext, hch⟩ := ihDL _ _ _ _ h
      have hdl : (bytes.drop 1).length = bytes.length - 1 :=
        List.length_drop _ _
      refine ⟨d, s, hv, by omega, by omega, ?_, ?_⟩
      · intro ext
        simp only [decode_dictF]
        have hg1 : ¬((bytes.take s ++ ext).length < 2) := by
          rw [length_take_append (by omega) ext]; omega
        have hg2 : ¬((bytes.take s ++ ext).getD 0 0 ≠ 100) := by
          rw [getD_take_append (by omega) (by omega) ext]; exact c2
        have hg3 : ¬((bytes.take s ++ ext).getD 1 0 = 101) := by
          rw [getD_take_append (by omega) (by omega) ext]; exact c3
        rw [if_neg hg1, if_neg hg2, if_neg hg3]
        have hdrop1 : (bytes.take s ++ ext).drop 1
            = (bytes.drop 1).take (s - 1) ++ ext := by
          rw [List.drop_append_of_le_length
            (by rw [List.length_take]; omega), List.drop_take]
        rw [hdrop1]
        exact hext ext
      · intro kv hkv
        rcases hch kv hkv with h0 | ⟨h1le, c0, hc0, hdec⟩
        · simp at h0
        · rw [List.drop_drop,
            show 1 + (kv.2.index - 1) = kv.2.index from by omega] at hdec
          exact ⟨by omega, c0, hc0, hdec⟩
    exact ⟨hC, hL, hD, hLL, hDL⟩

/-- C1 counterexample: on `ld1:xdeee` the decoder succeeds, and the innermost
(empty) dict records offset 4 — its position inside its PARENT dict's buffer
`d1:xdeee`, not in the original buffer (where it sits at offset 5).  Slicing
the original buffer at the recorded offset 4 with size 2 yields `xd`, which
does not re-decode to the container (it is a decode error), while the slice
at the true original offset 5 does. -/
theorem c1_counterexample :
    decode (strB "ld1:xdeee")
      = .ok (.list 0 [.dict 1 [(strB "x", .dict 4 [] 2)] 7] 9) ∧
    ((strB "ld1:xdeee").drop 4).take 2 = strB "xd" ∧
    decode (((strB "ld1:xdeee").drop 4).take 2)
      = .err ("unexpected char: " ++ charStr 120) ∧
    decode (((strB "ld1:xdeee").drop 5).take 2) = .ok (.dict 0 [] 2) :=
  ⟨rfl, rfl, rfl, rfl⟩

/-- C1 (amended): for every input buffer that decodes successfully, the root
value records offset 0 and a consumed length bounded by the buffer, and the
buffer's prefix of that length re-decodes to the same value; recursively,
every decoded container's recorded offset/size designate a slice of the
PARENT's local buffer (not the original buffer) that re-decodes to a value
equal to that container up to its offset tag (`SliceOk`). -/
theorem c1_amended : ∀ b v, decode b = .ok v →
    v.index = 0 ∧ v.size ≤ b.length ∧ decode (b.take v.size) = .ok v ∧
    SliceOk b v := by
  suffices H : ∀ n b v, b.length ≤ n → decode b = .ok v →
      v.index = 0 ∧ v.size ≤ b.length ∧ decode (b.take v.size) = .ok v ∧
      SliceOk b v by
    intro b v h
    exact H b.length b v le_rfl h
  intro n
  induction n with
  | zero =>
    intro b v hlen h
    have hb : b = [] := List.length_eq_zero.mp (by omega)
    subst hb
    simp [decode] at h
  | succ n ih =>
    intro b v hlen h
    rw [decode] at h
    cases hb : b.head? with
    | none => simp only [hb] at h; simp at h
    | some c =>
      simp only [hb] at h
      by_cases h105 : c = 105
      · rw [if_pos h105] at h
        obtain ⟨n0, s, hv, hs1, hsle, hext⟩ := decode_int_ok h
        subst hv
        refine ⟨rfl, hsle, ?_, .int _ _ _ _⟩
        show decode (b.take s) = _
        have hh2 : (b.take s).head? = some 105 := by
          rw [head?_take hs1, hb, h105]
        rw [decode_head_int hh2]
        have h2 := hext []
        rwa [List.append_nil] at h2
      rw [if_neg h105] at h
      by_cases h108 : c = 108
      · rw [if_pos h108] at h
        cases hF : decode_listF (3 * b.length + 3) b with
        | none => rw [hF] at h; simp at h
        | some r =>
          rw [hF] at h
          simp only [Option.getD_some] at h
          subst h
          obtain ⟨l, s, hv, hs2, hsle, hext, hch⟩ :=
            (decodeF_ok_spec (3 * b.length + 3)).2.1 b _ hF
          subst hv
          refine ⟨rfl, hsle, ?_, ?_⟩
          · show decode (b.take s) = _
            have hh2 : (b.take s).head? = some 108 := by
              rw [head?_take (by omega), hb, h108]
            apply listF_decode hh2
            have h2 := hext []
            rwa [List.append_nil] at h2
          · refine SliceOk.list _ _ _ _ ?_ ?_
            · intro ch hchm
              obtain ⟨hi1, c0, hc0, hdec⟩ := hch ch hchm
              have hlen2 : (b.drop ch.index).length ≤ n := by
                rw [List.length_drop]; omega
              obtain ⟨hc0i, _, hc0take, _⟩ :=
                ih (b.drop ch.index) c0 hlen2 hdec
              have hsize : ch.size = c0.size := by
                rw [hc0, setIndex_size]
              have hset : setIndex ch 0 = c0 := by
                rw [hc0, setIndex_setIndex]
                exact setIndex_self hc0i
              rw [hsize, hset]
              exact hc0take
            · intro ch hchm
              obtain ⟨hi1, c0, hc0, hdec⟩ := hch ch hchm
              have hlen2 : (b.drop ch.index).length ≤ n := by
                rw [List.length_drop]; omega
              obtain ⟨_, _, _, hso⟩ := ih (b.drop ch.index) c0 hlen2 hdec
              have hso2 := sliceOk_setIndex ch.index hso
              rwa [← hc0] at hso2
      rw [if_neg h108] at h
      by_cases h100 : c = 100
      · rw [if_pos h100] at h
        cases hF : decode_dictF (3 * b.length + 3) b with
        | none => rw [hF] at h; simp at h
        | some r =>
          rw [hF] at h
          simp only [Option.getD_some] at h
          subst h
          obtain ⟨d, s, hv, hs2, hsle, hext, hch⟩ :=
            (decodeF_ok_spec (3 * b.length + 3)).2.2.1 b _ hF
          subst hv
          refine ⟨rfl, hsle, ?_, ?_⟩
          · show decode (b.take s) = _
            have hh2 : (b.take s).head? = some 100 := by
              rw [head?_take (by omega), hb, h100]
            apply dictF_decode hh2
            have h2 := hext []
            rwa [List.append_nil] at h2
          · refine SliceOk.dict _ _ _ _ ?_ ?_
            · intro kv hkvm
              obtain ⟨hi1, c0, hc0, hdec⟩ := hch kv hkvm
              have hlen2 : (b.drop kv.2.index).length ≤ n := by
                rw [List.length_drop]; omega
              obtain ⟨hc0i, _, hc0take, _⟩ :=
                ih (b.drop kv.2.index) c0 hlen2 hdec
              have hsize : kv.2.size = c0.size := by
                rw [hc0, setIndex_size]
              have hset : setIndex kv.2 0 = c0 := by
                rw [hc0, setIndex_setIndex]
                exact setIndex_self hc0i
              rw [hsize, hset]
              exact hc0take
            · intro kv hkvm
              obtain ⟨hi1, c0, hc0, hdec⟩ := hch kv hkvm
              have hlen2 : (b.drop kv.2.index).length ≤ n := by
                rw [List.length_drop]; omega
              obtain ⟨_, _, _, hso⟩ :=
                ih (b.drop kv.2.index) c0 hlen2 hdec
              have hso2 := sliceOk_setIndex kv.2.index hso
              rwa [← hc0] at hso2
      rw [if_neg h100] at h
      by_cases hdig : isAsciiDigit c = true
      · rw [if_pos hdig] at h
        obtain ⟨bs, s, hv, hs1, hsle, hext⟩ := decode_str_ok h
        subst hv
        refine ⟨rfl, hsle, ?_, .str _ _ _ _⟩
        show decode (b.take s) = _
        have hh2 : (b.take s).head? = some c := by
          rw [head?_take hs1, hb]
        rw [decode_head_digit hh2 hdig]
        have h2 := hext []
        rwa [List.append_nil] at h2
      · rw [if_neg hdig] at h
        simp at h

/-- Witness for `c1_amended` at the concrete input `li1ee`. -/
theorem c1_amended_witness :
    (BencodeVal.list 0 [.int 1 1 3] 5).index = 0 ∧
    (BencodeVal.list 0 [.int 1 1 3] 5).size ≤ (strB "li1ee").length ∧
    decode ((strB "li1ee").take (BencodeVal.list 0 [.int 1 1 3] 5).size)
      = .ok (.list 0 [.int 1 1 3] 5) ∧
    SliceOk (strB "li1ee") (.list 0 [.int 1 1 3] 5) :=
  c1_amended (strB "li1ee") (.list 0 [.int 1 1 3] 5) rfl

end Torrent
